import Mathlib

/-!
# Verification of the EasyScanlate differential update engine

This file gives a shallow embedding of the update engine of the
EasyScanlate repository and proves properties of it:

* `app/utils/update.py` — the in-process update handler: version-graph
  resolution (`_find_update_path`, a lazy Dijkstra over the master
  manifest), the download session (`start_update_download`,
  `_run_download_file`, `_cleanup_after_failure`) and
  `check_for_existing_download`.
* `dev/updater/updater.py` — the standalone applier (`UpdateWorker.run`,
  `_apply_single_update`, `_apply_patch`, `_delete_old_files`,
  `_copy_new_files`) and its re-implementation of `_find_update_path`.
* `dev/updater/create_update_package.py` — the manifest builder
  (`create_differential_package`, patch-target selection, `HOP_INTERVAL`).

Python dictionaries are modelled as association lists in insertion order,
the `heapq` priority queue as a list with a pop-minimum operation
(lexicographic on `(int, str)` pairs, string comparison by code point),
file contents as strings, SHA-256 and bsdiff as abstract function
parameters, and exceptions as `Except` results carrying the state at the
point of the raise.  Loops whose termination is not structural take a fuel
parameter; the supplied fuel is proved sufficient.
-/

/-- Python string comparison on the underlying character lists:
lexicographic by Unicode code point. -/
def pyStrLtL : List Char → List Char → Bool
  | [], [] => false
  | [], _ :: _ => true
  | _ :: _, [] => false
  | a :: as, b :: bs =>
    if a.toNat < b.toNat then true
    else if b.toNat < a.toNat then false
    else pyStrLtL as bs

/-- Python `s < t` for strings. -/
def pyStrLt (s t : String) : Bool :=
  pyStrLtL s.data t.data

/-- Python tuple comparison `(int, str) < (int, str)` as used by `heapq`
on the entries pushed by `_find_update_path`. -/
def keyLt (a b : Nat × String) : Bool :=
  a.1 < b.1 || (a.1 == b.1 && pyStrLt a.2 b.2)

theorem keyLt_num_le {a b : Nat × String} (h : keyLt a b = false) : b.1 ≤ a.1 := by
  unfold keyLt at h
  simp only [Bool.or_eq_false_iff, decide_eq_false_iff_not, Bool.and_eq_false_iff] at h
  omega

/-- `heapq.heappop`: remove and return the least entry.  We model the heap
as the multiset of its entries; `popMin` removes the leftmost occurrence
of a least element, which agrees with `heappop` on the observable values. -/
def popMin : List (Nat × String) → Option ((Nat × String) × List (Nat × String))
  | [] => none
  | x :: xs =>
    match popMin xs with
    | none => some (x, [])
    | some (m, rest) => if keyLt m x then some (m, x :: rest) else some (x, xs)

theorem keyLt_num_le2 {a b : Nat × String} (h : keyLt a b = true) : a.1 ≤ b.1 := by
  unfold keyLt at h
  simp only [Bool.or_eq_true, decide_eq_true_eq, Bool.and_eq_true, beq_iff_eq] at h
  omega

theorem popMin_nil : popMin [] = none := rfl

theorem popMin_eq_none {l : List (Nat × String)} (h : popMin l = none) : l = [] := by
  cases l with
  | nil => rfl
  | cons x xs =>
    exfalso
    simp only [popMin] at h
    split at h
    · exact Option.noConfusion h
    · split at h <;> exact Option.noConfusion h

theorem popMin_perm {l : List (Nat × String)} {m : Nat × String}
    {rest : List (Nat × String)} (h : popMin l = some (m, rest)) :
    l.Perm (m :: rest) := by
  induction l generalizing m rest with
  | nil => simp [popMin] at h
  | cons x xs ih =>
    simp only [popMin] at h
    split at h
    · rename_i hm
      simp only [Option.some.injEq, Prod.mk.injEq] at h
      obtain ⟨rfl, rfl⟩ := h
      have := popMin_eq_none hm
      subst this
      exact List.Perm.refl _
    · rename_i m2 rest2 hm
      split at h
      · rename_i hk
        simp only [Option.some.injEq, Prod.mk.injEq] at h
        obtain ⟨rfl, rfl⟩ := h
        exact ((ih hm).cons x).trans (List.Perm.swap _ x rest2)
      · simp only [Option.some.injEq, Prod.mk.injEq] at h
        obtain ⟨rfl, rfl⟩ := h
        exact List.Perm.refl _

theorem popMin_min {l : List (Nat × String)} {m : Nat × String}
    {rest : List (Nat × String)} (h : popMin l = some (m, rest)) :
    ∀ y ∈ l, m.1 ≤ y.1 := by
  induction l generalizing m rest with
  | nil => simp [popMin] at h
  | cons x xs ih =>
    simp only [popMin] at h
    split at h
    · rename_i hm
      simp only [Option.some.injEq, Prod.mk.injEq] at h
      obtain ⟨rfl, rfl⟩ := h
      have := popMin_eq_none hm
      subst this
      intro y hy
      simp only [List.mem_singleton] at hy
      subst hy; exact le_refl _
    · rename_i m2 rest2 hm
      split at h
      · rename_i hk
        simp only [Option.some.injEq, Prod.mk.injEq] at h
        obtain ⟨rfl, rfl⟩ := h
        intro y hy
        rcases List.mem_cons.mp hy with rfl | hy2
        · exact keyLt_num_le2 hk
        · exact ih hm y hy2
      · rename_i hk
        simp only [Option.some.injEq, Prod.mk.injEq] at h
        obtain ⟨rfl, rfl⟩ := h
        intro y hy
        rcases List.mem_cons.mp hy with rfl | hy2
        · exact le_refl _
        · have h1 := ih hm y hy2
          have h2 := keyLt_num_le (by simpa using hk)
          omega

theorem popMin_length {l : List (Nat × String)} {m : Nat × String}
    {rest : List (Nat × String)} (h : popMin l = some (m, rest)) :
    rest.length + 1 = l.length := by
  have := (popMin_perm h).length_eq
  simpa using this.symm

theorem popMin_mem {l : List (Nat × String)} {m : Nat × String}
    {rest : List (Nat × String)} (h : popMin l = some (m, rest)) : m ∈ l :=
  (popMin_perm h).mem_iff.mpr (List.mem_cons_self _ _)

/-- Number of occurrences of `y` in `l` (multiset count). -/
def countOcc (y : Nat × String) (l : List (Nat × String)) : Nat :=
  l.countP (fun z => decide (z = y))

theorem countOcc_nil (y : Nat × String) : countOcc y [] = 0 := rfl

theorem countOcc_append (y : Nat × String) (l1 l2 : List (Nat × String)) :
    countOcc y (l1 ++ l2) = countOcc y l1 + countOcc y l2 := by
  simp [countOcc, List.countP_append]

theorem countOcc_pos_iff_mem (y : Nat × String) (l : List (Nat × String)) :
    0 < countOcc y l ↔ y ∈ l := by
  simp [countOcc, List.countP_pos_iff]

theorem countOcc_eq_zero_iff (y : Nat × String) (l : List (Nat × String)) :
    countOcc y l = 0 ↔ y ∉ l := by
  rw [← countOcc_pos_iff_mem]
  omega

theorem popMin_countOcc {l : List (Nat × String)} {m : Nat × String}
    {rest : List (Nat × String)} (h : popMin l = some (m, rest))
    (y : Nat × String) :
    countOcc y l = countOcc y (m :: rest) :=
  (popMin_perm h).countP_eq _

theorem countOcc_cons_self (y : Nat × String) (l : List (Nat × String)) :
    countOcc y (y :: l) = countOcc y l + 1 := by
  simp [countOcc, List.countP_cons]

theorem countOcc_cons_ne {y z : Nat × String} (l : List (Nat × String)) (h : z ≠ y) :
    countOcc y (z :: l) = countOcc y l := by
  simp [countOcc, List.countP_cons, h]

theorem popMin_rest_subset {l : List (Nat × String)} {m : Nat × String}
    {rest : List (Nat × String)} (h : popMin l = some (m, rest)) :
    ∀ y ∈ rest, y ∈ l := by
  intro y hy
  exact (popMin_perm h).mem_iff.mpr (List.mem_cons_of_mem _ hy)

/-- Lookup in an insertion-ordered association list (Python `dict[k]` /
`dict.get(k)`, collapsed to `Option`). -/
def lookupA {α : Type} : List (String × α) → String → Option α
  | [], _ => none
  | (k, v) :: rest, key => if k = key then some v else lookupA rest key

/-- Python `dict[k] = v`: replace the first binding of `k`, or append a
new binding when `k` is absent. -/
def setA {α : Type} : List (String × α) → String → α → List (String × α)
  | [], key, v => [(key, v)]
  | (k, w) :: rest, key, v =>
    if k = key then (key, v) :: rest else (k, w) :: setA rest key v

/-- Python `k in dict`. -/
def containsKeyA {α : Type} (l : List (String × α)) (key : String) : Bool :=
  (lookupA l key).isSome

theorem lookupA_setA_self {α : Type} (l : List (String × α)) (k : String) (v : α) :
    lookupA (setA l k v) k = some v := by
  induction l with
  | nil => simp [setA, lookupA]
  | cons p rest ih =>
    obtain ⟨k2, w⟩ := p
    by_cases h : k2 = k
    · subst h; simp [setA, lookupA]
    · simp [setA, h, lookupA, ih]

theorem lookupA_setA_ne {α : Type} (l : List (String × α)) {k k2 : String} (v : α)
    (h : k ≠ k2) : lookupA (setA l k v) k2 = lookupA l k2 := by
  induction l with
  | nil => simp [setA, lookupA, h]
  | cons p rest ih =>
    obtain ⟨k3, w⟩ := p
    by_cases h3 : k3 = k
    · subst h3; simp [setA, lookupA, h]
    · simp [setA, h3, lookupA, ih]

theorem keys_setA {α : Type} (l : List (String × α)) (k : String) (v : α)
    (h : containsKeyA l k = true) :
    (setA l k v).map Prod.fst = l.map Prod.fst := by
  induction l with
  | nil => simp [containsKeyA, lookupA] at h
  | cons p rest ih =>
    obtain ⟨k2, w⟩ := p
    by_cases h2 : k2 = k
    · subst h2; simp [setA]
    · simp only [containsKeyA, lookupA, h2, if_false] at h
      simp [setA, h2, ih h]

theorem lookupA_isSome_iff_mem_keys {α : Type} (l : List (String × α)) (k : String) :
    (lookupA l k).isSome = true ↔ k ∈ l.map Prod.fst := by
  induction l with
  | nil => simp [lookupA]
  | cons p rest ih =>
    obtain ⟨k2, w⟩ := p
    by_cases h : k2 = k
    · subst h; simp [lookupA]
    · simp [lookupA, h, ih, Ne.symm h]

theorem lookupA_some_mem_keys {α : Type} {l : List (String × α)} {k : String} {v : α}
    (h : lookupA l k = some v) : k ∈ l.map Prod.fst := by
  apply (lookupA_isSome_iff_mem_keys l k).mp
  simp [h]

/-! ## Data model: the master manifest (§6 of update.py / updater.py / create_update_package.py) -/

/-- The `"patch"` object of a package entry (and of a
`package-manifest.json`): `{"file", "patch_file", "old_sha256"}`. -/
structure PatchInfo where
  file : String
  patch_file : String
  old_sha256 : String
deriving DecidableEq, Repr

/-- One entry of `manifest["packages"][to_version]`:
`{"file": str, "size": int, "from_version": str, "patch": ... | absent,
"type": str | absent}`. -/
structure Package where
  file : String
  size : Nat
  from_version : String
  patch : Option PatchInfo
  ptype : Option String
deriving DecidableEq, Repr

/-- A file manifest `manifest["versions"][v]`: relative path → sha256 hex,
in insertion order. -/
abbrev FileManifest := List (String × String)

/-- The master manifest: `{"versions": {...}, "packages": {...}}`, with
dictionaries in insertion order. -/
structure Manifest where
  versions : List (String × FileManifest)
  packages : List (String × List Package)
deriving DecidableEq, Repr

/-- A package annotated with `download_from_tag` (the destination version
under which it is listed), as produced by both `_find_update_path`
implementations. -/
structure AnnPkg where
  pkg : Package
  download_from_tag : String
deriving DecidableEq, Repr

/-! ## `UpdateHandler._find_update_path` (app/utils/update.py, lines 174–216) -/

/-- One element of the `edges` list of `update.py`:
`(pkg['from_version'], to_v, pkg['size'], pkg)`. -/
structure EdgeA where
  frm : String
  tov : String
  size : Nat
  pkg : Package
deriving DecidableEq, Repr

/-- `edges = []; for to_v, packages in self.manifest['packages'].items():
for pkg in packages: edges.append(...)`. -/
def mkEdges (m : Manifest) : List EdgeA :=
  m.packages.flatMap fun tp => tp.2.map fun pkg => ⟨pkg.from_version, tp.1, pkg.size, pkg⟩

/-- `new_dist < distances[to_v]` where `distances[to_v]` may be
`float('inf')` (modelled as `none`). -/
def distLtD (n : Nat) : Option Nat → Bool
  | none => true
  | some m => n < m

/-- `current_dist > distances[current_v]` with `float('inf')` as `none`. -/
def gtD (k : Nat) : Option Nat → Bool
  | none => false
  | some m => m < k

/-- State of the Dijkstra loop of `update.py`: the `distances` and
`previous_nodes` dictionaries and the `pq` heap.  A `previous_nodes`
value is `(current_v, pkg, to_v)`. -/
structure DStateA where
  dist : List (String × Option Nat)
  prev : List (String × Option (String × Package × String))
  pq : List (Nat × String)
deriving DecidableEq, Repr

/-- Resolver failure: `KeyError` escaping `_find_update_path` (caught by
`_process_manifest`), or fuel exhaustion (proved unreachable). -/
inductive UErr where
  | keyError
  | stuck
deriving DecidableEq, Repr

/-- The inner `for from_v, to_v, size, pkg in edges` relaxation loop of
one iteration of the while-loop (update.py lines 195–201). -/
def relaxAllA (cv : String) (cd : Nat) : List EdgeA → DStateA → Except UErr DStateA
  | [], st => .ok st
  | e :: rest, st =>
    if e.frm = cv then
      match lookupA st.dist e.tov with
      | none => .error .keyError
      | some dto =>
        if distLtD (cd + e.size) dto then
          relaxAllA cv cd rest
            ⟨setA st.dist e.tov (some (cd + e.size)),
             setA st.prev e.tov (some (cv, e.pkg, e.tov)),
             st.pq ++ [(cd + e.size, e.tov)]⟩
        else relaxAllA cv cd rest st
    else relaxAllA cv cd rest st

/-- The `while pq:` loop (update.py lines 190–201), with fuel. -/
def dijkstraLoopA (edges : List EdgeA) : Nat → DStateA → Except UErr DStateA
  | 0, _ => .error .stuck
  | fuel + 1, st =>
    match popMin st.pq with
    | none => .ok st
    | some ((k, v), pq2) =>
      match lookupA st.dist v with
      | none => .error .keyError
      | some dv =>
        if gtD k dv then dijkstraLoopA edges fuel ⟨st.dist, st.prev, pq2⟩
        else
          match relaxAllA v k edges ⟨st.dist, st.prev, pq2⟩ with
          | .error e => .error e
          | .ok st2 => dijkstraLoopA edges fuel st2

/-- Path reconstruction (update.py lines 203–216): walk `previous_nodes`
from `end_version` back to `start_version`, annotating each package with
`download_from_tag`, then reverse.  `previous_nodes.get` returning `None`
(key absent or value `None`) returns `[]`.  Fuel exhaustion (`none`)
corresponds to a cycle in `previous_nodes`, which is proved unreachable. -/
def buildPathA (prev : List (String × Option (String × Package × String)))
    (startV : String) : Nat → String → List AnnPkg → Option (List AnnPkg)
  | 0, _, _ => none
  | fuel + 1, current, acc =>
    if current = startV then some acc.reverse
    else
      match lookupA prev current with
      | none => some []
      | some none => some []
      | some (some (prevV, pkgInfo, toTag)) =>
          buildPathA prev startV fuel prevV (acc ++ [⟨pkgInfo, toTag⟩])

/-- `UpdateHandler._find_update_path(self, start_version, end_version)`. -/
def findUpdatePath (m : Manifest) (startVersion endVersion : String) :
    Except UErr (List AnnPkg) :=
  let edges := mkEdges m
  let keys := m.versions.map Prod.fst
  let dist0 : List (String × Option Nat) := keys.map fun v => (v, none)
  let prev0 : List (String × Option (String × Package × String)) :=
    keys.map fun v => (v, none)
  if containsKeyA dist0 startVersion = false then .ok []
  else
    let st0 : DStateA := ⟨setA dist0 startVersion (some 0), prev0, [(0, startVersion)]⟩
    match dijkstraLoopA edges (st0.pq.length + keys.length * edges.length + 1) st0 with
    | .error e => .error e
    | .ok stf =>
      match buildPathA stf.prev startVersion (keys.length + 1) endVersion [] with
      | none => .error .stuck
      | some p => .ok p

/-! ## `UpdateWorker._find_update_path` (dev/updater/updater.py, lines 175–218)

The updater re-implements the resolver; the differences are that each
edge's package dictionary is annotated with `download_from_tag` when the
`edges` list is built, and that `previous_nodes` stores
`(current_v, pkg_with_target)` pairs. -/

/-- One element of the `edges` list of `updater.py`:
`(pkg['from_version'], to_v, pkg['size'], pkg_with_target)`. -/
structure EdgeU where
  frm : String
  tov : String
  size : Nat
  pkg : AnnPkg
deriving DecidableEq, Repr

/-- updater.py lines 177–183. -/
def mkEdgesU (m : Manifest) : List EdgeU :=
  m.packages.flatMap fun tp =>
    tp.2.map fun pkg => ⟨pkg.from_version, tp.1, pkg.size, ⟨pkg, tp.1⟩⟩

/-- Dijkstra-loop state for `updater.py`; `previous_nodes` values are
`(current_v, pkg_with_target)`. -/
structure DStateU where
  dist : List (String × Option Nat)
  prev : List (String × Option (String × AnnPkg))
  pq : List (Nat × String)
deriving DecidableEq, Repr

/-- Relaxation loop of `updater.py` (lines 199–205). -/
def relaxAllU (cv : String) (cd : Nat) : List EdgeU → DStateU → Except UErr DStateU
  | [], st => .ok st
  | e :: rest, st =>
    if e.frm = cv then
      match lookupA st.dist e.tov with
      | none => .error .keyError
      | some dto =>
        if distLtD (cd + e.size) dto then
          relaxAllU cv cd rest
            ⟨setA st.dist e.tov (some (cd + e.size)),
             setA st.prev e.tov (some (cv, e.pkg)),
             st.pq ++ [(cd + e.size, e.tov)]⟩
        else relaxAllU cv cd rest st
    else relaxAllU cv cd rest st

/-- The `while pq:` loop of `updater.py` (lines 194–205), with fuel. -/
def dijkstraLoopU (edges : List EdgeU) : Nat → DStateU → Except UErr DStateU
  | 0, _ => .error .stuck
  | fuel + 1, st =>
    match popMin st.pq with
    | none => .ok st
    | some ((k, v), pq2) =>
      match lookupA st.dist v with
      | none => .error .keyError
      | some dv =>
        if gtD k dv then dijkstraLoopU edges fuel ⟨st.dist, st.prev, pq2⟩
        else
          match relaxAllU v k edges ⟨st.dist, st.prev, pq2⟩ with
          | .error e => .error e
          | .ok st2 => dijkstraLoopU edges fuel st2

/-- Path reconstruction of `updater.py` (lines 207–218). -/
def buildPathU (prev : List (String × Option (String × AnnPkg)))
    (startV : String) : Nat → String → List AnnPkg → Option (List AnnPkg)
  | 0, _, _ => none
  | fuel + 1, current, acc =>
    if current = startV then some acc.reverse
    else
      match lookupA prev current with
      | none => some []
      | some none => some []
      | some (some (prevV, pkgInfo)) =>
          buildPathU prev startV fuel prevV (acc ++ [pkgInfo])

/-- `UpdateWorker._find_update_path(self, start_version, end_version)`. -/
def findUpdatePathU (m : Manifest) (startVersion endVersion : String) :
    Except UErr (List AnnPkg) :=
  let edges := mkEdgesU m
  let keys := m.versions.map Prod.fst
  let dist0 : List (String × Option Nat) := keys.map fun v => (v, none)
  let prev0 : List (String × Option (String × AnnPkg)) :=
    keys.map fun v => (v, none)
  if containsKeyA dist0 startVersion = false then .ok []
  else
    let st0 : DStateU := ⟨setA dist0 startVersion (some 0), prev0, [(0, startVersion)]⟩
    match dijkstraLoopU edges (st0.pq.length + keys.length * edges.length + 1) st0 with
    | .error e => .error e
    | .ok stf =>
      match buildPathU stf.prev startVersion (keys.length + 1) endVersion [] with
      | none => .error .stuck
      | some p => .ok p

/-! ## Chains in the package graph

A chain is a sequence of edges of the manifest's package graph
connecting one version to another; its weight is the summed `size`.
This is the "package sequence connecting current to target" of the
specification. -/

/-- `ChainE E a ch c`: the edge list `ch` is a path from `a` to `c`
using edges of `E`. -/
inductive ChainE (E : List EdgeA) : String → List EdgeA → String → Prop
  | nil (v : String) : ChainE E v [] v
  | cons {a c : String} {e : EdgeA} {rest : List EdgeA} :
      e ∈ E → e.frm = a → ChainE E e.tov rest c → ChainE E a (e :: rest) c

/-- Total download size of a chain. -/
def chainWeight (ch : List EdgeA) : Nat :=
  (ch.map EdgeA.size).sum

theorem chainWeight_nil : chainWeight [] = 0 := rfl

theorem chainWeight_append (l1 l2 : List EdgeA) :
    chainWeight (l1 ++ l2) = chainWeight l1 + chainWeight l2 := by
  simp [chainWeight]

/-- The edges described by an annotated package list (the resolver's
result): from `pkg['from_version']` to `download_from_tag` with weight
`pkg['size']`. -/
def annEdges (p : List AnnPkg) : List EdgeA :=
  p.map fun a => ⟨a.pkg.from_version, a.download_from_tag, a.pkg.size, a.pkg⟩

/-- Summed `size` field of a package sequence. -/
def pathSize (p : List AnnPkg) : Nat :=
  (p.map fun a => a.pkg.size).sum

theorem pathSize_eq_chainWeight (p : List AnnPkg) :
    pathSize p = chainWeight (annEdges p) := by
  simp [pathSize, annEdges, chainWeight, List.map_map, Function.comp_def]

theorem chainE_append_single {E : List EdgeA} {a b : String} {ch : List EdgeA}
    {e : EdgeA} (he : e ∈ E) (hf : e.frm = b) :
    ChainE E a ch b → ChainE E a (ch ++ [e]) e.tov := by
  induction ch generalizing a with
  | nil =>
    intro h
    cases h
    exact ChainE.cons he hf (ChainE.nil _)
  | cons e2 rest ih =>
    intro h
    cases h with
    | cons he2 hf2 htail => exact ChainE.cons he2 hf2 (ih htail)

theorem chainE_snoc_inv {E : List EdgeA} {a c : String} {ch : List EdgeA} {e : EdgeA}
    (h : ChainE E a (ch ++ [e]) c) :
    e ∈ E ∧ c = e.tov ∧ ChainE E a ch e.frm := by
  induction ch generalizing a with
  | nil =>
    cases h with
    | cons he hf htail =>
      cases htail with
      | nil => exact ⟨he, rfl, hf ▸ ChainE.nil _⟩
  | cons e2 rest ih =>
    cases h with
    | cons he2 hf2 htail =>
      obtain ⟨h1, h2, h3⟩ := ih htail
      exact ⟨h1, h2, ChainE.cons he2 hf2 h3⟩

/-- Shape of the edges produced by `mkEdges`: the tuple components agree
with the fields of the package dictionary. -/
theorem mkEdges_shape {m : Manifest} {e : EdgeA} (h : e ∈ mkEdges m) :
    e.frm = e.pkg.from_version ∧ e.size = e.pkg.size := by
  simp only [mkEdges, List.mem_flatMap, List.mem_map] at h
  obtain ⟨tp, _, pkg, _, rfl⟩ := h
  exact ⟨rfl, rfl⟩

/-- Position of the first occurrence of `v` in a list. -/
def rankOf : List String → String → Nat
  | [], _ => 0
  | x :: xs, v => if x = v then 0 else rankOf xs v + 1

theorem rankOf_lt_length {S : List String} {v : String} (h : v ∈ S) :
    rankOf S v < S.length := by
  induction S with
  | nil => simp at h
  | cons x xs ih =>
    by_cases hx : x = v
    · simp [rankOf, hx]
    · rcases List.mem_cons.mp h with rfl | h2
      · exact absurd rfl hx
      · simp only [rankOf, hx, if_false, List.length_cons]
        exact Nat.succ_lt_succ (ih h2)

theorem rankOf_append_mem {S : List String} (T : List String) {v : String} (h : v ∈ S) :
    rankOf (S ++ T) v = rankOf S v := by
  induction S with
  | nil => simp at h
  | cons x xs ih =>
    by_cases hx : x = v
    · simp [rankOf, hx]
    · rcases List.mem_cons.mp h with rfl | h2
      · exact absurd rfl hx
      · simp [rankOf, hx, ih h2]

theorem rankOf_append_new {S : List String} {v : String} (h : v ∉ S) :
    rankOf (S ++ [v]) v = S.length := by
  induction S with
  | nil => simp [rankOf]
  | cons x xs ih =>
    have hx : x ≠ v := fun he => h (he ▸ List.mem_cons_self _ _)
    have h2 : v ∉ xs := fun hm => h (List.mem_cons_of_mem _ hm)
    simp [rankOf, hx, ih h2]

theorem lookupA_mapconst {α : Type} (K : List String) (c : α) (x : String) :
    lookupA (K.map fun v => (v, c)) x = if x ∈ K then some c else none := by
  induction K with
  | nil => simp [lookupA]
  | cons k ks ih =>
    by_cases h : k = x
    · subst h; simp [lookupA]
    · simp [lookupA, h, ih, Ne.symm h]

theorem keys_mapconst {α : Type} (K : List String) (c : α) :
    ((K.map fun v => (v, c)).map Prod.fst) = K := by
  simp [List.map_map, Function.comp_def]

theorem lookupA_none_of_not_mem {α : Type} {l : List (String × α)} {k : String}
    (h : k ∉ l.map Prod.fst) : lookupA l k = none := by
  cases hl : lookupA l k with
  | none => rfl
  | some v => exact absurd (lookupA_some_mem_keys hl) h

/-- Lists with no duplicates have length bounded by any superset. -/
theorem nodup_length_le {S K : List String} (hn : S.Nodup) (hs : ∀ v ∈ S, v ∈ K) :
    S.length ≤ K.length := by
  calc S.length = S.toFinset.card := (List.toFinset_card_of_nodup hn).symm
    _ ≤ K.toFinset.card := by
        apply Finset.card_le_card
        intro x hx
        simp only [List.mem_toFinset] at hx ⊢
        exact hs x hx
    _ ≤ K.length := List.toFinset_card_le K

/-! ## Correctness of the resolver (update.py lines 174–216)

The standard lazy-Dijkstra invariant, with a ghost list `S` recording the
settled versions in processing order.  `E` is the `edges` list, `K` the
key list of `manifest['versions']`, `s` the start version. -/

/-- Invariant fields common to the between-iterations state and the
mid-relaxation state. -/
structure DCore (E : List EdgeA) (K : List String) (s : String)
    (st : DStateA) (S : List String) : Prop where
  distKeys : st.dist.map Prod.fst = K
  prevKeys : st.prev.map Prod.fst = K
  nodupK : K.Nodup
  nodupS : S.Nodup
  sSub : ∀ v ∈ S, v ∈ K
  dStart : lookupA st.dist s = some (some 0)
  prevSpec : ∀ v pv pk tv, lookupA st.prev v = some (some (pv, pk, tv)) →
    tv = v ∧ pv ∈ S ∧
    (∃ e ∈ E, e.frm = pv ∧ e.tov = v ∧ e.pkg = pk ∧
      ∃ du, lookupA st.dist pv = some (some du) ∧
        lookupA st.dist v = some (some (du + e.size))) ∧
    (v ∈ S → rankOf S pv < rankOf S v)
  finPrev : ∀ v n, lookupA st.dist v = some (some n) → v ≠ s →
    ∃ pv pk tv, lookupA st.prev v = some (some (pv, pk, tv))
  pqDom : ∀ p ∈ st.pq, ∃ n, lookupA st.dist p.2 = some (some n) ∧ n ≤ p.1
  settledLe : ∀ v ∈ S, ∀ p ∈ st.pq,
    ∃ dv, lookupA st.dist v = some (some dv) ∧ dv ≤ p.1
  settledFin : ∀ v ∈ S, ∃ dv, lookupA st.dist v = some (some dv)
  frontier : ∀ v n, lookupA st.dist v = some (some n) → v ∉ S → (n, v) ∈ st.pq
  uniq : ∀ v n, lookupA st.dist v = some (some n) → countOcc (n, v) st.pq ≤ 1
  settledNoEntry : ∀ v ∈ S, ∀ dv, lookupA st.dist v = some (some dv) →
    (dv, v) ∉ st.pq
  optS : ∀ v ∈ S, ∀ ch, ChainE E s ch v →
    ∃ dv, lookupA st.dist v = some (some dv) ∧ dv ≤ chainWeight ch

/-- The invariant holding between iterations of the while-loop. -/
structure DInv (E : List EdgeA) (K : List String) (s : String)
    (st : DStateA) (S : List String) extends DCore E K s st S : Prop where
  relaxed : ∀ v ∈ S, ∀ e ∈ E, e.frm = v →
    ∃ dv dt, lookupA st.dist v = some (some dv) ∧
      lookupA st.dist e.tov = some (some dt) ∧ dt ≤ dv + e.size

/-- The invariant holding during the relaxation loop while settling `u`
at distance `k`; `done` is the prefix of `edges` already examined. -/
structure RInv (E : List EdgeA) (K : List String) (s : String) (u : String)
    (k : Nat) (done : List EdgeA) (st : DStateA) (S : List String)
    extends DCore E K s st S : Prop where
  uMem : u ∈ S
  dU : lookupA st.dist u = some (some k)
  procBound : ∀ v ∈ S, ∃ dv, lookupA st.dist v = some (some dv) ∧ dv ≤ k
  relaxedOld : ∀ v ∈ S, v ≠ u → ∀ e ∈ E, e.frm = v →
    ∃ dv dt, lookupA st.dist v = some (some dv) ∧
      lookupA st.dist e.tov = some (some dt) ∧ dt ≤ dv + e.size
  relaxedDone : ∀ e ∈ done, e.frm = u →
    ∃ dt, lookupA st.dist e.tov = some (some dt) ∧ dt ≤ k + e.size

/-- One successful relaxation (update.py lines 197–201) preserves the
mid-relaxation invariant. -/
theorem relaxOne_preserves {E : List EdgeA} {K : List String} {s u : String}
    {k : Nat} {done : List EdgeA} {st : DStateA} {S : List String} {e : EdgeA}
    (hInv : RInv E K s u k done st S) (heE : e ∈ E) (hfrm : e.frm = u)
    {dto : Option Nat} (hlook : lookupA st.dist e.tov = some dto)
    (hlt : distLtD (k + e.size) dto = true) :
    RInv E K s u k (done ++ [e])
      ⟨setA st.dist e.tov (some (k + e.size)),
       setA st.prev e.tov (some (u, e.pkg, e.tov)),
       st.pq ++ [(k + e.size, e.tov)]⟩ S := by
  obtain ⟨⟨distKeys, prevKeys, nodupK, nodupS, sSub, dStart, prevSpec, finPrev, pqDom,
    settledLe, settledFin, frontier, uniq, settledNoEntry, optS⟩,
    uMem, dU, procBound, relaxedOld, relaxedDone⟩ := hInv
  have htK : e.tov ∈ K := by
    have := lookupA_some_mem_keys hlook
    rwa [distKeys] at this
  have htS : e.tov ∉ S := by
    intro hmem
    obtain ⟨dv, hdv, hle⟩ := procBound _ hmem
    rw [hlook] at hdv
    have hdto : dto = some dv := Option.some.inj hdv
    subst hdto
    simp only [distLtD, decide_eq_true_eq] at hlt
    omega
  have htu : e.tov ≠ u := fun h => htS (h ▸ uMem)
  have hts : e.tov ≠ s := by
    intro h
    rw [h, dStart] at hlook
    have hdto : dto = some 0 := (Option.some.inj hlook).symm
    subst hdto
    simp only [distLtD, decide_eq_true_eq] at hlt
    omega
  have hdist_t : lookupA (setA st.dist e.tov (some (k + e.size))) e.tov
      = some (some (k + e.size)) := lookupA_setA_self _ _ _
  have hdist_ne : ∀ x, x ≠ e.tov →
      lookupA (setA st.dist e.tov (some (k + e.size))) x = lookupA st.dist x :=
    fun x hx => lookupA_setA_ne _ _ (fun h => hx h.symm)
  have hprev_t : lookupA (setA st.prev e.tov (some (u, e.pkg, e.tov))) e.tov
      = some (some (u, e.pkg, e.tov)) := lookupA_setA_self _ _ _
  have hprev_ne : ∀ x, x ≠ e.tov →
      lookupA (setA st.prev e.tov (some (u, e.pkg, e.tov))) x = lookupA st.prev x :=
    fun x hx => lookupA_setA_ne _ _ (fun h => hx h.symm)
  have hcontd : containsKeyA st.dist e.tov = true := by
    simp [containsKeyA, hlook]
  have hcontp : containsKeyA st.prev e.tov = true := by
    unfold containsKeyA
    rw [lookupA_isSome_iff_mem_keys, prevKeys]
    exact htK
  refine ⟨⟨?_, ?_, nodupK, nodupS, sSub, ?_, ?_, ?_, ?_, ?_, ?_, ?_, ?_, ?_, ?_⟩,
    uMem, ?_, ?_, ?_, ?_⟩
  · rw [keys_setA _ _ _ hcontd]; exact distKeys
  · rw [keys_setA _ _ _ hcontp]; exact prevKeys
  · rw [hdist_ne s (Ne.symm hts)]; exact dStart
  · -- prevSpec
    intro v pv pk tv hl
    by_cases hv : v = e.tov
    · subst hv
      rw [hprev_t] at hl
      have h1 : u = pv ∧ e.pkg = pk ∧ e.tov = tv := by
        have h2 := Option.some.inj (Option.some.inj hl)
        simpa [Prod.ext_iff] using h2
      obtain ⟨rfl, rfl, rfl⟩ := h1
      refine ⟨rfl, uMem, ⟨e, heE, hfrm, rfl, rfl, k, ?_, ?_⟩, fun hmem => absurd hmem htS⟩
      · rw [hdist_ne u (Ne.symm htu)]; exact dU
      · exact hdist_t
    · rw [hprev_ne v hv] at hl
      obtain ⟨htv, hpvS, ⟨e2, he2, hf2, ht2, hp2, du, hdu, hdv⟩, hrank⟩ :=
        prevSpec v pv pk tv hl
      have hpvne : pv ≠ e.tov := fun h => htS (h ▸ hpvS)
      refine ⟨htv, hpvS, ⟨e2, he2, hf2, ht2, hp2, du, ?_, ?_⟩, hrank⟩
      · rw [hdist_ne pv hpvne]; exact hdu
      · rw [hdist_ne v hv]; exact hdv
  · -- finPrev
    intro v n hd hvs
    by_cases hv : v = e.tov
    · subst hv
      exact ⟨u, e.pkg, e.tov, hprev_t⟩
    · rw [hdist_ne v hv] at hd
      obtain ⟨pv, pk, tv, hp⟩ := finPrev v n hd hvs
      exact ⟨pv, pk, tv, by rw [hprev_ne v hv]; exact hp⟩
  · -- pqDom
    intro p hp
    rcases List.mem_append.mp hp with hp1 | hp2
    · obtain ⟨n, hn, hle⟩ := pqDom p hp1
      by_cases hpt : p.2 = e.tov
      · rw [hpt] at hn
        rw [hlook] at hn
        have hdto : dto = some n := Option.some.inj hn
        subst hdto
        simp only [distLtD, decide_eq_true_eq] at hlt
        refine ⟨k + e.size, ?_, by omega⟩
        rw [hpt]; exact hdist_t
      · refine ⟨n, ?_, hle⟩
        rw [hdist_ne p.2 hpt]; exact hn
    · simp only [List.mem_singleton] at hp2
      subst hp2
      exact ⟨k + e.size, hdist_t, le_refl _⟩
  · -- settledLe
    intro v hv p hp
    have hvne : v ≠ e.tov := fun h => htS (h ▸ hv)
    rcases List.mem_append.mp hp with hp1 | hp2
    · obtain ⟨dv, hdv, hle⟩ := settledLe v hv p hp1
      exact ⟨dv, by rw [hdist_ne v hvne]; exact hdv, hle⟩
    · simp only [List.mem_singleton] at hp2
      subst hp2
      obtain ⟨dv, hdv, hle⟩ := procBound v hv
      exact ⟨dv, by rw [hdist_ne v hvne]; exact hdv, by simp; omega⟩
  · -- settledFin
    intro v hv
    have hvne : v ≠ e.tov := fun h => htS (h ▸ hv)
    obtain ⟨dv, hdv⟩ := settledFin v hv
    exact ⟨dv, by rw [hdist_ne v hvne]; exact hdv⟩
  · -- frontier
    intro v n hd hnS
    by_cases hv : v = e.tov
    · subst hv
      rw [hdist_t] at hd
      have : n = k + e.size := by
        have := Option.some.inj hd
        exact (Option.some.inj this).symm
      subst this
      simp [List.mem_append]
    · rw [hdist_ne v hv] at hd
      have := frontier v n hd hnS
      simp [List.mem_append, this]
  · -- uniq
    intro v n hd
    by_cases hv : v = e.tov
    · subst hv
      rw [hdist_t] at hd
      have hn : n = k + e.size := (Option.some.inj (Option.some.inj hd)).symm
      subst hn
      rw [countOcc_append]
      have h0 : countOcc (k + e.size, e.tov) st.pq = 0 := by
        rw [countOcc_eq_zero_iff]
        intro hmem
        obtain ⟨n0, hn0, hle0⟩ := pqDom _ hmem
        simp only at hn0 hle0
        rw [hlook] at hn0
        have hdto : dto = some n0 := Option.some.inj hn0
        subst hdto
        simp only [distLtD, decide_eq_true_eq] at hlt
        omega
      rw [h0]
      simp [countOcc, List.countP_cons]
    · rw [hdist_ne v hv] at hd
      rw [countOcc_append]
      have h0 : countOcc (n, v) [(k + e.size, e.tov)] = 0 := by
        rw [countOcc_eq_zero_iff]
        simp only [List.mem_singleton]
        intro hc
        simp only [Prod.mk.injEq] at hc
        exact hv hc.2
      rw [h0]
      simpa using uniq v n hd
  · -- settledNoEntry
    intro v hv dv hdv
    have hvne : v ≠ e.tov := fun h => htS (h ▸ hv)
    rw [hdist_ne v hvne] at hdv
    have h1 := settledNoEntry v hv dv hdv
    simp only [List.mem_append, List.mem_singleton]
    rintro (hmem | hc)
    · exact h1 hmem
    · simp only [Prod.mk.injEq] at hc
      exact hvne hc.2
  · -- optS
    intro v hv ch hch
    have hvne : v ≠ e.tov := fun h => htS (h ▸ hv)
    obtain ⟨dv, hdv, hle⟩ := optS v hv ch hch
    exact ⟨dv, by rw [hdist_ne v hvne]; exact hdv, hle⟩
  · -- dU
    rw [hdist_ne u (Ne.symm htu)]; exact dU
  · -- procBound
    intro v hv
    have hvne : v ≠ e.tov := fun h => htS (h ▸ hv)
    obtain ⟨dv, hdv, hle⟩ := procBound v hv
    exact ⟨dv, by rw [hdist_ne v hvne]; exact hdv, hle⟩
  · -- relaxedOld
    intro v hv hvu e2 he2 hf2
    obtain ⟨dv, dt, hdv, hdt, hle⟩ := relaxedOld v hv hvu e2 he2 hf2
    have hvne : v ≠ e.tov := fun h => htS (h ▸ hv)
    by_cases hte : e2.tov = e.tov
    · rw [hte] at hdt
      rw [hlook] at hdt
      have hdto : dto = some dt := Option.some.inj hdt
      subst hdto
      simp only [distLtD, decide_eq_true_eq] at hlt
      refine ⟨dv, k + e.size, by rw [hdist_ne v hvne]; exact hdv, ?_, by omega⟩
      rw [hte]; exact hdist_t
    · refine ⟨dv, dt, by rw [hdist_ne v hvne]; exact hdv, ?_, hle⟩
      rw [hdist_ne e2.tov hte]; exact hdt
  · -- relaxedDone
    intro e2 he2mem hf2
    rcases List.mem_append.mp he2mem with hd2 | hd2
    · obtain ⟨dt, hdt, hle⟩ := relaxedDone e2 hd2 hf2
      by_cases hte : e2.tov = e.tov
      · rw [hte] at hdt
        rw [hlook] at hdt
        have hdto : dto = some dt := Option.some.inj hdt
        subst hdto
        simp only [distLtD, decide_eq_true_eq] at hlt
        refine ⟨k + e.size, ?_, by omega⟩
        rw [hte]; exact hdist_t
      · refine ⟨dt, ?_, hle⟩
        rw [hdist_ne e2.tov hte]; exact hdt
    · simp only [List.mem_singleton] at hd2
      subst hd2
      exact ⟨k + e2.size, hdist_t, le_refl _⟩

/-- Extending the examined-prefix invariant by one edge that needed no
(or no further) relaxation. -/
theorem rinv_extend_done {E : List EdgeA} {K : List String} {s u : String}
    {k : Nat} {done : List EdgeA} {st : DStateA} {S : List String} {e : EdgeA}
    (hInv : RInv E K s u k done st S)
    (hnew : e.frm = u → ∃ dt, lookupA st.dist e.tov = some (some dt) ∧ dt ≤ k + e.size) :
    RInv E K s u k (done ++ [e]) st S := by
  obtain ⟨core, uMem, dU, procBound, relaxedOld, relaxedDone⟩ := hInv
  refine ⟨core, uMem, dU, procBound, relaxedOld, ?_⟩
  intro e2 he2 hf2
  rcases List.mem_append.mp he2 with h1 | h1
  · exact relaxedDone e2 h1 hf2
  · simp only [List.mem_singleton] at h1
    subst h1
    exact hnew hf2

/-- The relaxation loop over an edge-list suffix: it never raises under a
well-formed manifest, preserves the invariant, extends the examined
prefix, and pushes at most one heap entry per edge. -/
theorem relaxAllA_spec {E : List EdgeA} {K : List String} {s u : String} {k : Nat}
    (hWFtov : ∀ e ∈ E, e.tov ∈ K) :
    ∀ (es done : List EdgeA) (st : DStateA) (S : List String),
    (∀ e ∈ es, e ∈ E) →
    RInv E K s u k done st S →
    ∃ st2, relaxAllA u k es st = .ok st2 ∧ RInv E K s u k (done ++ es) st2 S ∧
      st2.pq.length ≤ st.pq.length + es.length := by
  intro es
  induction es with
  | nil =>
    intro done st S _ hInv
    exact ⟨st, rfl, by simpa using hInv, by simp⟩
  | cons e rest ih =>
    intro done st S hes hInv
    have heE : e ∈ E := hes e (List.mem_cons_self _ _)
    have hrest : ∀ e2 ∈ rest, e2 ∈ E := fun e2 h2 => hes e2 (List.mem_cons_of_mem _ h2)
    by_cases hf : e.frm = u
    · have htK : e.tov ∈ K := hWFtov e heE
      have hsome : (lookupA st.dist e.tov).isSome = true := by
        rw [lookupA_isSome_iff_mem_keys, hInv.distKeys]
        exact htK
      obtain ⟨dto, hlook⟩ := Option.isSome_iff_exists.mp hsome
      by_cases hlt : distLtD (k + e.size) dto = true
      · have hInv2 := relaxOne_preserves hInv heE hf hlook hlt
        obtain ⟨st2, hrun, hInv3, hlen⟩ := ih (done ++ [e]) _ S hrest hInv2
        refine ⟨st2, ?_, ?_, ?_⟩
        · simp only [relaxAllA, hf, if_pos, hlook, hlt, if_true]
          exact hrun
        · rw [List.append_assoc] at hInv3
          simpa using hInv3
        · simp only [List.length_append, List.length_singleton] at hlen ⊢
          simp only [List.length_cons]
          omega
      · have hInv2 : RInv E K s u k (done ++ [e]) st S := by
          apply rinv_extend_done hInv
          intro _
          cases dto with
          | none => simp [distLtD] at hlt
          | some m =>
            simp only [distLtD, decide_eq_true_eq] at hlt
            exact ⟨m, hlook, by omega⟩
        obtain ⟨st2, hrun, hInv3, hlen⟩ := ih (done ++ [e]) st S hrest hInv2
        refine ⟨st2, ?_, ?_, ?_⟩
        · simp only [relaxAllA, hf, if_pos, hlook]
          rw [if_neg hlt]
          exact hrun
        · rw [List.append_assoc] at hInv3
          simpa using hInv3
        · simp only [List.length_cons]
          omega
    · have hInv2 : RInv E K s u k (done ++ [e]) st S :=
        rinv_extend_done hInv (fun hc => absurd hc hf)
      obtain ⟨st2, hrun, hInv3, hlen⟩ := ih (done ++ [e]) st S hrest hInv2
      refine ⟨st2, ?_, ?_, ?_⟩
      · simp only [relaxAllA, hf, if_false]
        exact hrun
      · rw [List.append_assoc] at hInv3
        simpa using hInv3
      · simp only [List.length_cons]
        omega

theorem countOcc_le_cons (y z : Nat × String) (l : List (Nat × String)) :
    countOcc y l ≤ countOcc y (z :: l) := by
  by_cases h : z = y
  · rw [h, countOcc_cons_self]; omega
  · rw [countOcc_cons_ne _ h]

/-- The popped minimum bounds the weight of every chain from the start to
the popped version from below (the frontier-crossing argument): any chain
either reaches a version whose current tentative distance is at most the
chain's weight, or costs at least the minimum key. -/
theorem opt_at_pop {E : List EdgeA} {K : List String} {s : String} {st : DStateA}
    {S : List String} {k : Nat} {u : String} {pq2 : List (Nat × String)}
    (hInv : DInv E K s st S) (hpop : popMin st.pq = some ((k, u), pq2)) :
    ∀ (ch : List EdgeA) (x : String), ChainE E s ch x →
      (∃ dx, lookupA st.dist x = some (some dx) ∧ dx ≤ chainWeight ch) ∨
        k ≤ chainWeight ch := by
  intro ch
  induction ch using List.reverseRecOn with
  | nil =>
    intro x hch
    cases hch
    exact Or.inl ⟨0, hInv.dStart, le_refl _⟩
  | append_singleton ch0 e ih =>
    intro x hch
    obtain ⟨heE, rfl, hch0⟩ := chainE_snoc_inv hch
    have hwe : chainWeight (ch0 ++ [e]) = chainWeight ch0 + e.size := by
      rw [chainWeight_append]; simp [chainWeight]
    rcases ih e.frm hch0 with ⟨dy, hdy, hle⟩ | hk
    · by_cases hyS : e.frm ∈ S
      · obtain ⟨dv, dt, hdv, hdt, hrel⟩ := hInv.relaxed e.frm hyS e heE rfl
        have hdd : dy = dv := by
          rw [hdy] at hdv
          exact Option.some.inj (Option.some.inj hdv)
        left
        exact ⟨dt, hdt, by omega⟩
      · have hfr := hInv.frontier e.frm dy hdy hyS
        have hmin := popMin_min hpop _ hfr
        right
        simp only at hmin
        omega
    · right
      omega

/-- Popping the minimum and processing it (the non-skip branch)
establishes the mid-relaxation invariant with the popped version settled
last. -/
theorem settle_establishes {E : List EdgeA} {K : List String} {s : String}
    {st : DStateA} {S : List String} {k : Nat} {u : String}
    {pq2 : List (Nat × String)}
    (hInv : DInv E K s st S) (hpop : popMin st.pq = some ((k, u), pq2))
    {dv : Option Nat} (hdv : lookupA st.dist u = some dv)
    (hngt : gtD k dv = false) :
    RInv E K s u k [] ⟨st.dist, st.prev, pq2⟩ (S ++ [u]) ∧ u ∉ S := by
  have hmemk : (k, u) ∈ st.pq := popMin_mem hpop
  obtain ⟨n, hn, hnk⟩ := hInv.pqDom (k, u) hmemk
  simp only at hn hnk
  have hdvn : dv = some n := by
    rw [hn] at hdv
    exact (Option.some.inj hdv).symm
  subst hdvn
  have hkn : n = k := by
    simp only [gtD, decide_eq_false_iff_not] at hngt
    omega
  subst hkn
  have huS : u ∉ S := by
    intro hu
    exact hInv.settledNoEntry u hu n hn hmemk
  have huK : u ∈ K := by
    have := lookupA_some_mem_keys hn
    rwa [hInv.distKeys] at this
  have hsub2 : ∀ y ∈ pq2, y ∈ st.pq := popMin_rest_subset hpop
  refine ⟨⟨⟨hInv.distKeys, hInv.prevKeys, hInv.nodupK, ?_, ?_, hInv.dStart,
    ?_, hInv.finPrev, ?_, ?_, ?_, ?_, ?_, ?_, ?_⟩, ?_, hn, ?_, ?_, ?_⟩, huS⟩
  · -- nodupS
    rw [List.nodup_append]
    refine ⟨hInv.nodupS, List.nodup_singleton u, ?_⟩
    intro a ha hb
    simp only [List.mem_singleton] at hb
    subst hb
    exact huS ha
  · -- sSub
    intro v hv
    rcases List.mem_append.mp hv with h1 | h1
    · exact hInv.sSub v h1
    · simp only [List.mem_singleton] at h1
      subst h1
      exact huK
  · -- prevSpec
    intro v pv pk tv hl
    obtain ⟨htv, hpvS, hedge, hrank⟩ := hInv.prevSpec v pv pk tv hl
    refine ⟨htv, List.mem_append_left _ hpvS, hedge, ?_⟩
    intro hv
    rcases List.mem_append.mp hv with h1 | h1
    · rw [rankOf_append_mem _ hpvS, rankOf_append_mem _ h1]
      exact hrank h1
    · simp only [List.mem_singleton] at h1
      subst h1
      rw [rankOf_append_mem _ hpvS, rankOf_append_new huS]
      exact rankOf_lt_length hpvS
  · -- pqDom
    intro p hp
    exact hInv.pqDom p (hsub2 p hp)
  · -- settledLe
    intro v hv p hp
    rcases List.mem_append.mp hv with h1 | h1
    · exact hInv.settledLe v h1 p (hsub2 p hp)
    · simp only [List.mem_singleton] at h1
      subst h1
      refine ⟨n, hn, ?_⟩
      have := popMin_min hpop p (hsub2 p hp)
      simpa using this
  · -- settledFin
    intro v hv
    rcases List.mem_append.mp hv with h1 | h1
    · exact hInv.settledFin v h1
    · simp only [List.mem_singleton] at h1
      subst h1
      exact ⟨n, hn⟩
  · -- frontier
    intro v n0 hd hnS
    have hd2 : lookupA st.dist v = some (some n0) := hd
    have hvS : v ∉ S := fun h => hnS (List.mem_append_left _ h)
    have hvu : v ≠ u := by
      intro h
      apply hnS
      rw [h]
      exact List.mem_append_right _ (List.mem_singleton_self u)
    have hmem := hInv.frontier v n0 hd2 hvS
    have hne : ((n, u) : Nat × String) ≠ (n0, v) := by
      intro hc
      simp only [Prod.mk.injEq] at hc
      exact hvu hc.2.symm
    have hc := popMin_countOcc hpop (n0, v)
    rw [countOcc_cons_ne _ hne] at hc
    show (n0, v) ∈ pq2
    rw [← countOcc_pos_iff_mem] at hmem ⊢
    omega
  · -- uniq
    intro v n0 hd
    have hd2 : lookupA st.dist v = some (some n0) := hd
    have h1 := hInv.uniq v n0 hd2
    have hc := popMin_countOcc hpop (n0, v)
    have h2 := countOcc_le_cons (n0, v) (n, u) pq2
    show countOcc (n0, v) pq2 ≤ 1
    omega
  · -- settledNoEntry
    intro v hv dv0 hdv0
    have hdv2 : lookupA st.dist v = some (some dv0) := hdv0
    rcases List.mem_append.mp hv with h1 | h1
    · intro hmem
      exact hInv.settledNoEntry v h1 dv0 hdv2 (hsub2 _ hmem)
    · simp only [List.mem_singleton] at h1
      have hdd : dv0 = n := by
        rw [h1, hn] at hdv2
        exact (Option.some.inj (Option.some.inj hdv2)).symm
      have huniq := hInv.uniq u n hn
      have hc := popMin_countOcc hpop (n, u)
      rw [countOcc_cons_self] at hc
      show (dv0, v) ∉ pq2
      rw [← countOcc_pos_iff_mem]
      rw [hdd, h1]
      omega
  · -- optS
    intro v hv ch hch
    rcases List.mem_append.mp hv with h1 | h1
    · exact hInv.optS v h1 ch hch
    · simp only [List.mem_singleton] at h1
      subst h1
      rcases opt_at_pop hInv hpop ch v hch with ⟨dx, hdx, hle⟩ | hk
      · have hdd : dx = n := by
          rw [hn] at hdx
          exact (Option.some.inj (Option.some.inj hdx)).symm
        subst hdd
        exact ⟨dx, hn, hle⟩
      · exact ⟨n, hn, hk⟩
  · -- uMem
    exact List.mem_append_right _ (List.mem_singleton_self u)
  · -- procBound
    intro v hv
    rcases List.mem_append.mp hv with h1 | h1
    · obtain ⟨dv0, hdv0, hle⟩ := hInv.settledLe v h1 (n, u) hmemk
      exact ⟨dv0, hdv0, by simpa using hle⟩
    · simp only [List.mem_singleton] at h1
      subst h1
      exact ⟨n, hn, le_refl _⟩
  · -- relaxedOld
    intro v hv hvu e he hf
    have h1 : v ∈ S := by
      rcases List.mem_append.mp hv with h1 | h1
      · exact h1
      · simp only [List.mem_singleton] at h1
        exact absurd h1 hvu
    exact hInv.relaxed v h1 e he hf
  · -- relaxedDone
    intro e he
    simp at he

/-- A stale pop (`current_dist > distances[current_v]`, update.py lines
192–193) preserves the loop invariant. -/
theorem skip_preserves {E : List EdgeA} {K : List String} {s : String}
    {st : DStateA} {S : List String} {k : Nat} {u : String}
    {pq2 : List (Nat × String)}
    (hInv : DInv E K s st S) (hpop : popMin st.pq = some ((k, u), pq2))
    {m : Nat} (hdv : lookupA st.dist u = some (some m))
    (hgt : gtD k (some m) = true) :
    DInv E K s ⟨st.dist, st.prev, pq2⟩ S := by
  simp only [gtD, decide_eq_true_eq] at hgt
  have hsub2 : ∀ y ∈ pq2, y ∈ st.pq := popMin_rest_subset hpop
  refine ⟨⟨hInv.distKeys, hInv.prevKeys, hInv.nodupK, hInv.nodupS, hInv.sSub,
    hInv.dStart, hInv.prevSpec, hInv.finPrev, ?_, ?_, hInv.settledFin, ?_, ?_, ?_,
    hInv.optS⟩, hInv.relaxed⟩
  · -- pqDom
    intro p hp
    exact hInv.pqDom p (hsub2 p hp)
  · -- settledLe
    intro v hv p hp
    exact hInv.settledLe v hv p (hsub2 p hp)
  · -- frontier
    intro v n0 hd hnS
    have hd2 : lookupA st.dist v = some (some n0) := hd
    have hmem := hInv.frontier v n0 hd2 hnS
    have hne2 : ((k, u) : Nat × String) ≠ (n0, v) := by
      intro hc
      simp only [Prod.mk.injEq] at hc
      obtain ⟨h1, h2⟩ := hc
      rw [h2, hd2] at hdv
      have : n0 = m := Option.some.inj (Option.some.inj hdv)
      omega
    have hc := popMin_countOcc hpop (n0, v)
    rw [countOcc_cons_ne _ hne2] at hc
    show (n0, v) ∈ pq2
    rw [← countOcc_pos_iff_mem] at hmem ⊢
    omega
  · -- uniq
    intro v n0 hd
    have hd2 : lookupA st.dist v = some (some n0) := hd
    have h1 := hInv.uniq v n0 hd2
    have hc := popMin_countOcc hpop (n0, v)
    have h2 := countOcc_le_cons (n0, v) (k, u) pq2
    show countOcc (n0, v) pq2 ≤ 1
    omega
  · -- settledNoEntry
    intro v hv dv0 hdv0
    have hdv2 : lookupA st.dist v = some (some dv0) := hdv0
    intro hmem
    exact hInv.settledNoEntry v hv dv0 hdv2 (hsub2 _ hmem)

/-- The while-loop terminates within the supplied fuel, never raises
under a well-formed manifest, and its final state satisfies the invariant
with an empty heap. -/
theorem dijkstraLoopA_ok {E : List EdgeA} {K : List String} {s : String}
    (hWFtov : ∀ e ∈ E, e.tov ∈ K) :
    ∀ (fuel : Nat) (st : DStateA) (S : List String),
    DInv E K s st S →
    st.pq.length + (K.length - S.length) * E.length < fuel →
    ∃ stf Sf, dijkstraLoopA E fuel st = .ok stf ∧ DInv E K s stf Sf ∧ stf.pq = [] := by
  intro fuel
  induction fuel with
  | zero =>
    intro st S hInv hbud
    exact absurd hbud (by omega)
  | succ f ih =>
    intro st S hInv hbud
    cases hpop : popMin st.pq with
    | none =>
      refine ⟨st, S, ?_, hInv, popMin_eq_none hpop⟩
      simp only [dijkstraLoopA, hpop]
    | some pr =>
      obtain ⟨⟨k, u⟩, pq2⟩ := pr
      obtain ⟨n, hn, hnk⟩ := hInv.pqDom (k, u) (popMin_mem hpop)
      simp only at hn hnk
      have hlen := popMin_length hpop
      by_cases hgt : gtD k (some n) = true
      · have hInv2 := skip_preserves hInv hpop hn hgt
        have hbud2 : pq2.length + (K.length - S.length) * E.length < f := by
          simp only at hlen
          omega
        obtain ⟨stf, Sf, hrun, hf1, hf2⟩ := ih ⟨st.dist, st.prev, pq2⟩ S hInv2 hbud2
        refine ⟨stf, Sf, ?_, hf1, hf2⟩
        simp only [dijkstraLoopA, hpop, hn]
        rw [if_pos hgt]
        exact hrun
      · have hgt2 : gtD k (some n) = false := by simpa using hgt
        obtain ⟨hInv2, huS⟩ := settle_establishes hInv hpop hn hgt2
        obtain ⟨st2, hrelax, hInv3, hpq⟩ :=
          relaxAllA_spec hWFtov E [] ⟨st.dist, st.prev, pq2⟩ (S ++ [u])
            (fun e he => he) hInv2
        have hInv4 : DInv E K s st2 (S ++ [u]) := by
          obtain ⟨core, uMem, dU, procBound, relaxedOld, relaxedDone⟩ := hInv3
          refine ⟨core, ?_⟩
          intro v hv e he hf
          by_cases hvu : v = u
          · subst hvu
            obtain ⟨dt, hdt, hle⟩ := relaxedDone e (by simpa using he) hf
            exact ⟨k, dt, dU, hdt, hle⟩
          · exact relaxedOld v hv hvu e he hf
        have hSl : S.length + 1 ≤ K.length := by
          have := nodup_length_le hInv4.nodupS hInv4.sSub
          simpa using this
        have hbud2 : st2.pq.length + (K.length - (S ++ [u]).length) * E.length < f := by
          simp only [List.length_append, List.length_singleton]
          have harith : (K.length - S.length) * E.length
              = (K.length - (S.length + 1)) * E.length + E.length := by
            have h9 : K.length - S.length = (K.length - (S.length + 1)) + 1 := by omega
            rw [h9, Nat.add_mul, Nat.one_mul]
          simp only at hpq hlen
          omega
        obtain ⟨stf, Sf, hrun, hf1, hf2⟩ := ih st2 (S ++ [u]) hInv4 hbud2
        refine ⟨stf, Sf, ?_, hf1, hf2⟩
        simp only [dijkstraLoopA, hpop, hn]
        rw [if_neg (by simp [hgt2])]
        rw [hrelax]
        exact hrun

/-- The invariant holds for the initial state of `_find_update_path`
(update.py lines 181–188). -/
theorem dinv_init {E : List EdgeA} {K : List String} {s : String}
    (hK : K.Nodup) (hs : s ∈ K) :
    DInv E K s
      ⟨setA (K.map fun v => (v, none)) s (some 0),
       K.map fun v => (v, none), [(0, s)]⟩ [] := by
  have hd0 : lookupA (K.map fun v => (v, (none : Option Nat))) s = some none := by
    rw [lookupA_mapconst, if_pos hs]
  have hcont : containsKeyA (K.map fun v => (v, (none : Option Nat))) s = true := by
    simp [containsKeyA, hd0]
  have hself : lookupA (setA (K.map fun v => (v, (none : Option Nat))) s (some 0)) s
      = some (some 0) := lookupA_setA_self _ _ _
  have hother : ∀ x, x ≠ s →
      lookupA (setA (K.map fun v => (v, (none : Option Nat))) s (some 0)) x
        = if x ∈ K then some none else none := by
    intro x hx
    rw [lookupA_setA_ne _ _ (fun h => hx h.symm), lookupA_mapconst]
  have hfin : ∀ v n,
      lookupA (setA (K.map fun v => (v, (none : Option Nat))) s (some 0)) v
        = some (some n) → v = s ∧ n = 0 := by
    intro v n hv
    by_cases hvs : v = s
    · subst hvs
      rw [hself] at hv
      exact ⟨rfl, (Option.some.inj (Option.some.inj hv)).symm⟩
    · rw [hother v hvs] at hv
      split at hv
      · exact absurd (Option.some.inj hv) (by simp)
      · exact Option.noConfusion hv
  refine ⟨⟨?_, keys_mapconst K none, hK, List.nodup_nil, ?_, hself, ?_, ?_, ?_, ?_, ?_,
    ?_, ?_, ?_, ?_⟩, ?_⟩
  · rw [keys_setA _ _ _ hcont]
    exact keys_mapconst K none
  · intro v hv
    simp at hv
  · -- prevSpec
    intro v pv pk tv hl
    rw [lookupA_mapconst] at hl
    split at hl
    · exact absurd (Option.some.inj hl) (by simp)
    · exact Option.noConfusion hl
  · -- finPrev
    intro v n hv hvs
    exact absurd (hfin v n hv).1 hvs
  · -- pqDom
    intro p hp
    simp only [List.mem_singleton] at hp
    subst hp
    exact ⟨0, hself, le_refl _⟩
  · -- settledLe
    intro v hv
    simp at hv
  · -- settledFin
    intro v hv
    simp at hv
  · -- frontier
    intro v n hv _
    obtain ⟨rfl, rfl⟩ := hfin v n hv
    simp
  · -- uniq
    intro v n hv
    obtain ⟨rfl, rfl⟩ := hfin v n hv
    simp [countOcc, List.countP_cons]
  · -- settledNoEntry
    intro v hv
    simp at hv
  · -- optS
    intro v hv
    simp at hv
  · -- relaxed
    intro v hv
    simp at hv

/-- At loop exit every version with a finite distance is settled. -/
theorem all_settled {E : List EdgeA} {K : List String} {s : String}
    {st : DStateA} {S : List String} (hInv : DInv E K s st S) (hpq : st.pq = []) :
    ∀ v n, lookupA st.dist v = some (some n) → v ∈ S := by
  intro v n hd
  by_contra hnS
  have := hInv.frontier v n hd hnS
  rw [hpq] at this
  simp at this

/-- At loop exit, any version reachable by a chain from a finite-distance
version has a finite distance. -/
theorem chain_finite {E : List EdgeA} {K : List String} {s : String}
    {st : DStateA} {S : List String} (hInv : DInv E K s st S) (hpq : st.pq = []) :
    ∀ {a : String} {ch : List EdgeA} {x : String}, ChainE E a ch x →
    (∃ n, lookupA st.dist a = some (some n)) →
    ∃ m, lookupA st.dist x = some (some m) := by
  intro a ch x hch
  induction hch with
  | nil v => exact id
  | cons he hf htail ih =>
    rintro ⟨n, hn⟩
    rename_i a2 c2 e2 rest2
    have haS := all_settled hInv hpq _ n hn
    obtain ⟨dv, dt, hdv, hdt, _⟩ := hInv.relaxed _ haS _ he hf
    exact ih ⟨dt, hdt⟩

theorem annEdges_append (l1 l2 : List AnnPkg) :
    annEdges (l1 ++ l2) = annEdges l1 ++ annEdges l2 := by
  simp [annEdges]

/-- Correctness of the path reconstruction walk: starting at a settled
version, `keys.length + 1` fuel suffices, and the reconstructed package
sequence is a chain from the start whose weight equals the version's
final distance. -/
theorem buildPath_spec {E : List EdgeA} {K : List String} {s : String}
    {st : DStateA} {S : List String}
    (hInv : DInv E K s st S) (_hpq : st.pq = [])
    (hEshape : ∀ e ∈ E, e.frm = e.pkg.from_version ∧ e.size = e.pkg.size) :
    ∀ (r : Nat) (v : String), rankOf S v = r → v ∈ S →
    ∀ (acc : List AnnPkg) (fuel : Nat), r < fuel →
    ∃ items n, buildPathA st.prev s fuel v acc = some ((acc ++ items).reverse) ∧
      lookupA st.dist v = some (some n) ∧
      ChainE E s (annEdges items.reverse) v ∧
      chainWeight (annEdges items.reverse) = n := by
  intro r
  induction r using Nat.strong_induction_on with
  | _ r ih =>
    intro v hr hv acc fuel hfuel
    obtain ⟨fuel2, rfl⟩ : ∃ f2, fuel = f2 + 1 := ⟨fuel - 1, by omega⟩
    by_cases hvs : v = s
    · subst hvs
      refine ⟨[], 0, ?_, hInv.dStart, ?_, ?_⟩
      · simp [buildPathA]
      · exact ChainE.nil _
      · rfl
    · obtain ⟨n, hn⟩ := hInv.settledFin v hv
      obtain ⟨pv, pk, tv, hprev⟩ := hInv.finPrev v n hn hvs
      obtain ⟨htv, hpvS, hedge, hrank⟩ := hInv.prevSpec v pv pk tv hprev
      obtain ⟨e, heE, hef, het, hep, du, hdu, hdv⟩ := hedge
      obtain ⟨hsh1, hsh2⟩ := hEshape e heE
      have hne : n = du + e.size := by
        rw [hn] at hdv
        exact Option.some.inj (Option.some.inj hdv)
      have hrlt : rankOf S pv < r := hr ▸ hrank hv
      obtain ⟨items2, n2, hbp, hn2, hch2, hw2⟩ :=
        ih (rankOf S pv) hrlt pv rfl hpvS (acc ++ [⟨pk, tv⟩]) fuel2 (by omega)
      have hn2du : n2 = du := by
        rw [hdu] at hn2
        exact (Option.some.inj (Option.some.inj hn2)).symm
      have htv2 : e.tov = tv := by rw [het, htv]
      have hedge_eq : e = (⟨pk.from_version, tv, pk.size, pk⟩ : EdgeA) := by
        calc e = ⟨e.frm, e.tov, e.size, e.pkg⟩ := rfl
        _ = ⟨pk.from_version, tv, pk.size, pk⟩ := by rw [hsh1, hsh2, htv2, hep]
      refine ⟨⟨pk, tv⟩ :: items2, n, ?_, hn, ?_, ?_⟩
      · have hstep : buildPathA st.prev s (fuel2 + 1) v acc
            = buildPathA st.prev s fuel2 pv (acc ++ [⟨pk, tv⟩]) := by
          simp [buildPathA, hprev, hvs]
        rw [hstep, hbp]
        congr 1
        rw [List.append_assoc]
        rfl
      · have hconv : annEdges ((⟨pk, tv⟩ :: items2).reverse)
            = annEdges items2.reverse ++ [⟨pk.from_version, tv, pk.size, pk⟩] := by
          rw [List.reverse_cons, annEdges_append]
          rfl
        rw [hconv, ← hedge_eq]
        have := chainE_append_single heE (hef) hch2
        rwa [het] at this
      · have hconv : annEdges ((⟨pk, tv⟩ :: items2).reverse)
            = annEdges items2.reverse ++ [⟨pk.from_version, tv, pk.size, pk⟩] := by
          rw [List.reverse_cons, annEdges_append]
          rfl
        rw [hconv, chainWeight_append, hw2]
        simp only [chainWeight, List.map, List.sum_cons, List.sum_nil]
        have hsz : e.size = pk.size := by rw [hsh2, hep]
        omega

/-- Well-formedness of a master manifest (the invariants of §3 of the
specification): version keys are distinct and every package references
versions present in `versions`. -/
structure WFManifest (m : Manifest) : Prop where
  nodupKeys : (m.versions.map Prod.fst).Nodup
  edgeFrm : ∀ e ∈ mkEdges m, e.frm ∈ m.versions.map Prod.fst
  edgeTov : ∀ e ∈ mkEdges m, e.tov ∈ m.versions.map Prod.fst

theorem findUpdatePath_eq_of_mem {m : Manifest} {cur : String} (tgt : String)
    (hcur : cur ∈ m.versions.map Prod.fst) :
    findUpdatePath m cur tgt =
      match dijkstraLoopA (mkEdges m)
          (1 + (m.versions.map Prod.fst).length * (mkEdges m).length + 1)
          ⟨setA ((m.versions.map Prod.fst).map fun v => (v, none)) cur (some 0),
           (m.versions.map Prod.fst).map fun v => (v, none), [(0, cur)]⟩ with
      | .error e => .error e
      | .ok stf =>
        match buildPathA stf.prev cur ((m.versions.map Prod.fst).length + 1) tgt [] with
        | none => .error .stuck
        | some p => .ok p := by
  have hmm : List.map ((fun v => (v, (none : Option Nat))) ∘ Prod.fst) m.versions
      = (m.versions.map Prod.fst).map fun v => (v, (none : Option Nat)) :=
    (List.map_map _ _ _).symm
  have hc : containsKeyA (List.map ((fun v => (v, (none : Option Nat))) ∘ Prod.fst)
      m.versions) cur = true := by
    unfold containsKeyA
    rw [hmm, lookupA_mapconst, if_pos hcur]
    rfl
  unfold findUpdatePath
  rw [if_neg (by simp [hc])]
  rfl

theorem findUpdatePath_eq_of_not_mem {m : Manifest} {cur : String} (tgt : String)
    (hcur : cur ∉ m.versions.map Prod.fst) :
    findUpdatePath m cur tgt = .ok [] := by
  have hmm : List.map ((fun v => (v, (none : Option Nat))) ∘ Prod.fst) m.versions
      = (m.versions.map Prod.fst).map fun v => (v, (none : Option Nat)) :=
    (List.map_map _ _ _).symm
  have hc : containsKeyA (List.map ((fun v => (v, (none : Option Nat))) ∘ Prod.fst)
      m.versions) cur = false := by
    unfold containsKeyA
    rw [hmm, lookupA_mapconst, if_neg hcur]
    rfl
  unfold findUpdatePath
  rw [if_pos (by simp [hc])]

/-- C1.  For every well-formed master manifest and every pair
`(current, target)` such that `target` is reachable from `current` in the
package graph, `_find_update_path` (update.py) succeeds and returns a
package sequence forming a chain from `current` to `target` whose summed
`size` is at most the summed size of every package sequence connecting
`current` to `target` in that manifest: it minimises total download
bytes. -/
theorem findUpdatePath_minimal (m : Manifest) (hwf : WFManifest m)
    (cur tgt : String) (ch0 : List EdgeA)
    (hreach : ChainE (mkEdges m) cur ch0 tgt) :
    ∃ p, findUpdatePath m cur tgt = .ok p ∧
      ChainE (mkEdges m) cur (annEdges p) tgt ∧
      ∀ ch, ChainE (mkEdges m) cur ch tgt → pathSize p ≤ chainWeight ch := by
  by_cases hcur : cur ∈ m.versions.map Prod.fst
  · -- Dijkstra runs
    have hInit := dinv_init (E := mkEdges m) hwf.nodupKeys hcur
    have hbud : ([(0, cur)] : List (Nat × String)).length
        + ((m.versions.map Prod.fst).length - ([] : List String).length)
          * (mkEdges m).length
        < 1 + (m.versions.map Prod.fst).length * (mkEdges m).length + 1 := by
      simp
    obtain ⟨stf, Sf, hrun, hInvF, hpqF⟩ :=
      dijkstraLoopA_ok hwf.edgeTov
        (1 + (m.versions.map Prod.fst).length * (mkEdges m).length + 1)
        ⟨setA ((m.versions.map Prod.fst).map fun v => (v, none)) cur (some 0),
         (m.versions.map Prod.fst).map fun v => (v, none), [(0, cur)]⟩ [] hInit hbud
    have htgtFin : ∃ n, lookupA stf.dist tgt = some (some n) :=
      chain_finite hInvF hpqF hreach ⟨0, hInvF.dStart⟩
    obtain ⟨nt, hnt⟩ := htgtFin
    have htgtS : tgt ∈ Sf := all_settled hInvF hpqF tgt nt hnt
    have hrank : rankOf Sf tgt < (m.versions.map Prod.fst).length + 1 := by
      have h1 := rankOf_lt_length htgtS
      have h2 := nodup_length_le hInvF.nodupS hInvF.sSub
      omega
    obtain ⟨items, n2, hbp, hn2, hch, hw⟩ :=
      buildPath_spec hInvF hpqF (fun e he => mkEdges_shape he) (rankOf Sf tgt) tgt rfl
        htgtS [] ((m.versions.map Prod.fst).length + 1) hrank
    have hn2nt : n2 = nt := by
      rw [hnt] at hn2
      exact (Option.some.inj (Option.some.inj hn2)).symm
    refine ⟨items.reverse, ?_, hch, ?_⟩
    · rw [findUpdatePath_eq_of_mem tgt hcur, hrun]
      simp only [List.length_map] at hbp
      simp [hbp]
    · intro ch hchW
      obtain ⟨dv, hdv, hle⟩ := hInvF.optS tgt htgtS ch hchW
      have hdvnt : dv = nt := by
        rw [hnt] at hdv
        exact (Option.some.inj (Option.some.inj hdv)).symm
      rw [pathSize_eq_chainWeight, hw]
      omega
  · -- current version absent from the graph: the code returns []
    have htc : tgt = cur := by
      cases hreach with
      | nil => rfl
      | cons he hf _ =>
        exact absurd (hf ▸ hwf.edgeFrm _ he) hcur
    subst htc
    refine ⟨[], findUpdatePath_eq_of_not_mem tgt hcur, ChainE.nil _, ?_⟩
    intro ch _
    simp [pathSize]

/-! ## Equivalence of the two `_find_update_path` implementations

`updater.py` re-implements the resolver of `update.py`.  The only
differences are representational: the updater annotates each package with
`download_from_tag` when the edge list is built, while the app annotates
during path reconstruction.  We relate the two by mapping states. -/

/-- The correspondence between the two `previous_nodes` value shapes. -/
def liftPrevA : Option (String × Package × String) → Option (String × AnnPkg)
  | none => none
  | some (pv, pk, tv) => some (pv, ⟨pk, tv⟩)

/-- The correspondence between the two loop states. -/
def liftStateA (st : DStateA) : DStateU :=
  ⟨st.dist, st.prev.map fun p => (p.1, liftPrevA p.2), st.pq⟩

/-- The correspondence between the two edge representations. -/
def liftEdgeA (e : EdgeA) : EdgeU :=
  ⟨e.frm, e.tov, e.size, ⟨e.pkg, e.tov⟩⟩

theorem mkEdgesU_eq_map (m : Manifest) :
    mkEdgesU m = (mkEdges m).map liftEdgeA := by
  simp [mkEdges, mkEdgesU, List.map_flatMap, List.map_map, Function.comp_def, liftEdgeA]

theorem lookupA_map_val {α β : Type} (f : α → β) (l : List (String × α)) (k : String) :
    lookupA (l.map fun p => (p.1, f p.2)) k = (lookupA l k).map f := by
  induction l with
  | nil => rfl
  | cons p rest ih =>
    obtain ⟨k2, v⟩ := p
    by_cases h : k2 = k
    · subst h; simp [lookupA]
    · simp [lookupA, h, ih]

theorem setA_map_val {α β : Type} (f : α → β) (l : List (String × α)) (k : String)
    (v : α) :
    setA (l.map fun p => (p.1, f p.2)) k (f v)
      = (setA l k v).map fun p => (p.1, f p.2) := by
  induction l with
  | nil => simp [setA]
  | cons p rest ih =>
    obtain ⟨k2, w⟩ := p
    by_cases h : k2 = k
    · subst h; simp [setA]
    · simp [setA, h, ih]

theorem relaxAllU_lift (cv : String) (cd : Nat) :
    ∀ (es : List EdgeA) (st : DStateA),
    relaxAllU cv cd (es.map liftEdgeA) (liftStateA st)
      = match relaxAllA cv cd es st with
        | .error e => .error e
        | .ok st2 => .ok (liftStateA st2) := by
  intro es
  induction es with
  | nil => intro st; rfl
  | cons e rest ih =>
    intro st
    have l1 : (liftStateA st).dist = st.dist := rfl
    have l7 : (liftStateA st).prev = st.prev.map fun p => (p.1, liftPrevA p.2) := rfl
    have l8 : (liftStateA st).pq = st.pq := rfl
    have l3 : (liftEdgeA e).frm = e.frm := rfl
    have l4 : (liftEdgeA e).tov = e.tov := rfl
    have l5 : (liftEdgeA e).size = e.size := rfl
    have l6 : (liftEdgeA e).pkg = (⟨e.pkg, e.tov⟩ : AnnPkg) := rfl
    by_cases hf : e.frm = cv
    · cases hlook : lookupA st.dist e.tov with
      | none =>
        simp only [List.map_cons, relaxAllU, relaxAllA, l1, l3, l4, hf, hlook,
          eq_self_iff_true, if_true]
      | some dto =>
        by_cases hlt : distLtD (cd + e.size) dto = true
        · simp only [List.map_cons, relaxAllU, relaxAllA, l1, l7, l8, l3, l4, l5, l6,
            hf, hlook, hlt, eq_self_iff_true, if_true]
          have hst : (liftStateA
              ⟨setA st.dist e.tov (some (cd + e.size)),
               setA st.prev e.tov (some (cv, e.pkg, e.tov)),
               st.pq ++ [(cd + e.size, e.tov)]⟩ : DStateU)
              = ⟨setA st.dist e.tov (some (cd + e.size)),
                 setA (st.prev.map fun p => (p.1, liftPrevA p.2)) e.tov
                   (some (cv, ⟨e.pkg, e.tov⟩)),
                 st.pq ++ [(cd + e.size, e.tov)]⟩ := by
            unfold liftStateA
            simp only [DStateU.mk.injEq]
            refine ⟨trivial, ?_, trivial⟩
            rw [show (some (cv, (⟨e.pkg, e.tov⟩ : AnnPkg)))
                = liftPrevA (some (cv, e.pkg, e.tov)) from rfl]
            rw [setA_map_val]
          rw [← hst]
          exact ih _
        · have hlt2 : distLtD (cd + e.size) dto = false := by simpa using hlt
          simp only [List.map_cons, relaxAllU, relaxAllA, l1, l3, l4, l5,
            hf, hlook, hlt2, eq_self_iff_true, if_true, Bool.false_eq_true, if_false]
          exact ih st
    · have hf2 : ¬ (liftEdgeA e).frm = cv := by rw [l3]; exact hf
      simp only [List.map_cons, relaxAllU, relaxAllA, hf, hf2, if_false]
      exact ih st

theorem dijkstraLoopU_lift (edges : List EdgeA) :
    ∀ (fuel : Nat) (st : DStateA),
    dijkstraLoopU (edges.map liftEdgeA) fuel (liftStateA st)
      = match dijkstraLoopA edges fuel st with
        | .error e => .error e
        | .ok st2 => .ok (liftStateA st2) := by
  intro fuel
  induction fuel with
  | zero => intro st; rfl
  | succ f ih =>
    intro st
    have l1 : (liftStateA st).dist = st.dist := rfl
    have l7 : (liftStateA st).prev = st.prev.map fun p => (p.1, liftPrevA p.2) := rfl
    have l8 : (liftStateA st).pq = st.pq := rfl
    cases hpop : popMin st.pq with
    | none =>
      simp only [dijkstraLoopU, dijkstraLoopA, l8, hpop]
    | some pr =>
      obtain ⟨⟨k, v⟩, pq2⟩ := pr
      cases hlook : lookupA st.dist v with
      | none =>
        simp only [dijkstraLoopU, dijkstraLoopA, l8, l1, hpop, hlook]
      | some dv =>
        by_cases hgt : gtD k dv = true
        · simp only [dijkstraLoopU, dijkstraLoopA, l8, l1, l7, hpop, hlook, hgt, if_true]
          have hst : (liftStateA ⟨st.dist, st.prev, pq2⟩ : DStateU)
              = ⟨st.dist, st.prev.map fun p => (p.1, liftPrevA p.2), pq2⟩ := rfl
          rw [← hst]
          exact ih _
        · have hgt2 : gtD k dv = false := by simpa using hgt
          simp only [dijkstraLoopU, dijkstraLoopA, l8, l1, l7, hpop, hlook, hgt2,
            Bool.false_eq_true, if_false]
          have hst : (liftStateA ⟨st.dist, st.prev, pq2⟩ : DStateU)
              = ⟨st.dist, st.prev.map fun p => (p.1, liftPrevA p.2), pq2⟩ := rfl
          rw [← hst, relaxAllU_lift]
          cases hrel : relaxAllA v k edges ⟨st.dist, st.prev, pq2⟩ with
          | error e => simp [hrel]
          | ok st2 =>
            simp only [hrel]
            exact ih st2

theorem buildPathU_lift (prev : List (String × Option (String × Package × String)))
    (startV : String) :
    ∀ (fuel : Nat) (current : String) (acc : List AnnPkg),
    buildPathU (prev.map fun p => (p.1, liftPrevA p.2)) startV fuel current acc
      = buildPathA prev startV fuel current acc := by
  intro fuel
  induction fuel with
  | zero => intro current acc; rfl
  | succ f ih =>
    intro current acc
    simp only [buildPathU, buildPathA]
    by_cases hc : current = startV
    · rw [if_pos hc, if_pos hc]
    · rw [if_neg hc, if_neg hc]
      rw [lookupA_map_val]
      cases hl : lookupA prev current with
      | none => rfl
      | some o =>
        cases o with
        | none => rfl
        | some entry =>
          obtain ⟨pv, pk, tv⟩ := entry
          simp only [Option.map_some, liftPrevA]
          exact ih pv (acc ++ [⟨pk, tv⟩])

theorem findUpdatePathU_eq_of_mem {m : Manifest} {cur : String} (tgt : String)
    (hcur : cur ∈ m.versions.map Prod.fst) :
    findUpdatePathU m cur tgt =
      match dijkstraLoopU (mkEdgesU m)
          (1 + (m.versions.map Prod.fst).length * (mkEdgesU m).length + 1)
          ⟨setA ((m.versions.map Prod.fst).map fun v => (v, none)) cur (some 0),
           (m.versions.map Prod.fst).map fun v => (v, none), [(0, cur)]⟩ with
      | .error e => .error e
      | .ok stf =>
        match buildPathU stf.prev cur ((m.versions.map Prod.fst).length + 1) tgt [] with
        | none => .error .stuck
        | some p => .ok p := by
  have hmm : List.map ((fun v => (v, (none : Option Nat))) ∘ Prod.fst) m.versions
      = (m.versions.map Prod.fst).map fun v => (v, (none : Option Nat)) :=
    (List.map_map _ _ _).symm
  have hc : containsKeyA (List.map ((fun v => (v, (none : Option Nat))) ∘ Prod.fst)
      m.versions) cur = true := by
    unfold containsKeyA
    rw [hmm, lookupA_mapconst, if_pos hcur]
    rfl
  unfold findUpdatePathU
  rw [if_neg (by simp [hc])]
  rfl

theorem findUpdatePathU_eq_of_not_mem {m : Manifest} {cur : String} (tgt : String)
    (hcur : cur ∉ m.versions.map Prod.fst) :
    findUpdatePathU m cur tgt = .ok [] := by
  have hmm : List.map ((fun v => (v, (none : Option Nat))) ∘ Prod.fst) m.versions
      = (m.versions.map Prod.fst).map fun v => (v, (none : Option Nat)) :=
    (List.map_map _ _ _).symm
  have hc : containsKeyA (List.map ((fun v => (v, (none : Option Nat))) ∘ Prod.fst)
      m.versions) cur = false := by
    unfold containsKeyA
    rw [hmm, lookupA_mapconst, if_neg hcur]
    rfl
  unfold findUpdatePathU
  rw [if_pos (by simp [hc])]

/-- C6.  The in-process resolver (`UpdateHandler._find_update_path`,
update.py) and the applier's re-implementation
(`UpdateWorker._find_update_path`, updater.py) agree on every manifest
and every `(current, target)` pair: they return the same annotated
package sequence in the same order, hence the same total size.  Both are
pure functions of their inputs, so re-running either on unchanged inputs
yields the same result. -/
theorem findUpdatePathU_eq_findUpdatePath (m : Manifest) (cur tgt : String) :
    findUpdatePathU m cur tgt = findUpdatePath m cur tgt := by
  by_cases hcur : cur ∈ m.versions.map Prod.fst
  · rw [findUpdatePathU_eq_of_mem tgt hcur, findUpdatePath_eq_of_mem tgt hcur]
    have he : mkEdgesU m = (mkEdges m).map liftEdgeA := mkEdgesU_eq_map m
    have hprev0 : (((m.versions.map Prod.fst).map
          fun v => (v, (none : Option (String × Package × String)))).map
            fun p => (p.1, liftPrevA p.2))
        = (m.versions.map Prod.fst).map fun v => (v, (none : Option (String × AnnPkg))) := by
      simp [List.map_map, Function.comp_def, liftPrevA]
    have hst0 : (⟨setA ((m.versions.map Prod.fst).map fun v => (v, none)) cur (some 0),
          (m.versions.map Prod.fst).map fun v => (v, none), [(0, cur)]⟩ : DStateU)
        = liftStateA
            ⟨setA ((m.versions.map Prod.fst).map fun v => (v, none)) cur (some 0),
             (m.versions.map Prod.fst).map fun v => (v, none), [(0, cur)]⟩ := by
      unfold liftStateA
      simp only [DStateU.mk.injEq]
      exact ⟨trivial, hprev0.symm, trivial⟩
    rw [he, hst0]
    simp only [List.length_map]
    rw [dijkstraLoopU_lift]
    cases hrun : dijkstraLoopA (mkEdges m)
        (1 + m.versions.length * (mkEdges m).length + 1)
        ⟨setA (List.map (fun v => (v, none)) (List.map Prod.fst m.versions)) cur (some 0),
         List.map (fun v => (v, none)) (List.map Prod.fst m.versions), [(0, cur)]⟩ with
    | error e => simp only [hrun]
    | ok stf =>
      simp only [hrun]
      rw [show (liftStateA stf).prev = stf.prev.map fun p => (p.1, liftPrevA p.2) from rfl]
      rw [buildPathU_lift]
  · rw [findUpdatePathU_eq_of_not_mem tgt hcur, findUpdatePath_eq_of_not_mem tgt hcur]

/-- Concrete single-edge package for witness manifests. -/
def wPkg (sz : Nat) (frm : String) : Package := ⟨"update.zip", sz, frm, none, none⟩

/-- Concrete two-version manifest used as witness input. -/
def wManifest : Manifest :=
  ⟨[("v1", []), ("v2", [])], [("v2", [wPkg 5 "v1"])]⟩

/-- Witness for C1: the minimality theorem applied to a concrete
manifest with a single v1→v2 package. -/
theorem findUpdatePath_minimal_witness :
    WFManifest wManifest ∧
    (∃ p, findUpdatePath wManifest "v1" "v2" = .ok p ∧
      ChainE (mkEdges wManifest) "v1" (annEdges p) "v2" ∧
      ∀ ch, ChainE (mkEdges wManifest) "v1" ch "v2" → pathSize p ≤ chainWeight ch) := by
  have hwf : WFManifest wManifest := ⟨by decide, by decide, by decide⟩
  refine ⟨hwf, ?_⟩
  exact findUpdatePath_minimal wManifest hwf "v1" "v2"
    [⟨"v1", "v2", 5, wPkg 5 "v1"⟩]
    (ChainE.cons (by decide) rfl (ChainE.nil _))

/-! ## The patch applier (dev/updater/updater.py)

File contents are strings; a directory is an association list from
relative path to content.  SHA-256 (`get_sha256`) is an abstract function
`h` from contents to hex digests, `bsdiff4.file_patch` an abstract
partial function `bp old patch`.  `os` errors during individual deletions
are an oracle `osFail`; an `OSError` while writing `APPVERSION` is the
flag `writeVerFails` (the code only prints a warning for it).  Exceptions
are `Except.error` values carrying the message and the world state at the
raise. -/

/-- Contents of one directory: relative path → file content. -/
abbrev FS := List (String × String)

/-- A package archive (zip): whether `package-manifest.json` is present,
its parsed `"patch"` field, and the other entries. -/
structure Archive where
  hasMini : Bool
  patch : Option PatchInfo
  files : List (String × String)
deriving DecidableEq, Repr

/-- The handed-over temp directory: `manifest.json` (parsed master
manifest, `none` when absent) and the downloaded package archives. -/
structure TempD where
  manifest : Option Manifest
  archives : List (String × Archive)
deriving Repr

/-- The applier's world: the temp directory (`none` once deleted), the
scratch extraction directory, the install directory, and whether the
install directory exists. -/
structure World where
  temp : Option TempD
  extract : List (String × String)
  install : FS
  installExists : Bool
deriving Repr

/-- `".." in relative_path` on the character list. -/
def hasDDL : List Char → Bool
  | '.' :: '.' :: _ => true
  | _ :: rest => hasDDL rest
  | [] => false

/-- Python `".." in s`. -/
def containsDD (s : String) : Bool := hasDDL s.data

/-- `bs` begins with `as`. -/
def startsWithL : List Char → List Char → Bool
  | [], _ => true
  | _ :: _, [] => false
  | a :: as, b :: bs => a == b && startsWithL as bs

/-- `s` begins with `pre` (for directory-prefix tests). -/
def strStartsWith (s pre : String) : Bool := startsWithL pre.data s.data

/-- Remove the binding of `key` (Python `os.remove` on a flat map). -/
def eraseKey {α : Type} : List (String × α) → String → List (String × α)
  | [], _ => []
  | (k, v) :: rest, key => if k = key then rest else (k, v) :: eraseKey rest key

/-- Split a character list at every `/`. -/
def splitSlash : List Char → List Char → List String
  | [], acc => [⟨acc.reverse⟩]
  | c :: rest, acc =>
    if c = '/' then ⟨acc.reverse⟩ :: splitSlash rest []
    else splitSlash rest (c :: acc)

/-- Final component of a relative path (`os.path.basename`). -/
def baseName (s : String) : String := (splitSlash s.data []).getLastD s

/-- `os.path.isfile(join(install_dir, p))` on the flat map. -/
def isFileFS (fs : FS) (p : String) : Bool := containsKeyA fs p

/-- `os.path.isdir(join(install_dir, p))`: some file lives under `p/`. -/
def isDirFS (fs : FS) (p : String) : Bool :=
  fs.any fun e => strStartsWith e.1 (p ++ "/")

/-- Deleting one path: `os.remove` for a file, `shutil.rmtree` for a
directory, nothing when neither exists (updater.py lines 262–263). -/
def delPathFS (fs : FS) (p : String) : FS :=
  if isFileFS fs p then eraseKey fs p
  else if isDirFS fs p then fs.filter fun e => !(strStartsWith e.1 (p ++ "/"))
  else fs

/-- `UpdateWorker._delete_old_files` (updater.py lines 255–265): skip any
path containing `".."`; an `OSError` (oracle `osFail`) is logged and the
loop continues. -/
def deleteOldFiles (osFail : String → Bool) : List String → FS → FS
  | [], fs => fs
  | p :: rest, fs =>
    if containsDD p then deleteOldFiles osFail rest fs
    else if osFail p then deleteOldFiles osFail rest fs
    else deleteOldFiles osFail rest (delPathFS fs p)

/-- `UpdateWorker._copy_new_files` (updater.py lines 267–279): move every
extracted file except any named `package-manifest.json` into the install
directory, overwriting. -/
def copyNewFiles : List (String × String) → FS → FS
  | [], fs => fs
  | (rel, c) :: rest, fs =>
    if baseName rel = "package-manifest.json" then copyNewFiles rest fs
    else copyNewFiles rest (setA fs rel c)

/-- `UpdateWorker._apply_patch` (updater.py lines 220–252).  On success
the installed target is atomically replaced by the patched content and
the consumed patch file (and any unpatched copy of the target) is removed
from the extraction directory. -/
def applyPatch (h : String → String) (bp : String → String → Option String)
    (pi : PatchInfo) (w : World) : Except (String × World) World :=
  match lookupA w.install pi.file with
  | none => .error ("Cannot patch. Old file not found: " ++ pi.file, w)
  | some oldC =>
    match lookupA w.extract pi.patch_file with
    | none => .error ("Patch file missing from update package: " ++ pi.patch_file, w)
    | some patchC =>
      if h oldC ≠ pi.old_sha256 then
        .error ("Version mismatch. Cannot be patched safely.", w)
      else
        match bp oldC patchC with
        | none => .error ("Failed to apply binary patch.", w)
        | some newC =>
          .ok { w with
            install := setA w.install pi.file newC,
            extract := eraseKey (eraseKey w.extract pi.patch_file) pi.file }

/-- `UpdateWorker._apply_single_update` (updater.py lines 134–173):
extract the package, read its mini-manifest, apply the binary patch if
declared, delete removed files, copy new files. -/
def applySingleUpdate (h : String → String) (bp : String → String → Option String)
    (osFail : String → Bool) (man : Manifest) (ap : AnnPkg) (w : World) :
    Except (String × World) World :=
  match w.temp with
  | none => .error ("Update package " ++ ap.pkg.file ++ " not found.", w)
  | some td =>
    match lookupA td.archives ap.pkg.file with
    | none => .error ("Update package " ++ ap.pkg.file ++ " not found.", w)
    | some arch =>
      let w1 : World := { w with extract := arch.files }
      if arch.hasMini = false then
        .error ("package-manifest.json missing from the update zip.", w1)
      else
        match (match arch.patch with
               | some pi => applyPatch h bp pi w1
               | none => .ok w1) with
        | .error e => .error e
        | .ok w2 =>
          match lookupA man.versions ap.pkg.from_version with
          | none => .error ("KeyError: " ++ ap.pkg.from_version, w2)
          | some fromFM =>
            match lookupA man.versions ap.download_from_tag with
            | none => .error ("KeyError: " ++ ap.download_from_tag, w2)
            | some toFM =>
              let toRemove := (fromFM.map Prod.fst).filter fun f => !(containsKeyA toFM f)
              let w3 : World := { w2 with
                install := deleteOldFiles osFail toRemove w2.install }
              .ok { w3 with
                install := copyNewFiles w3.extract w3.install,
                extract := w3.extract.filter fun e => baseName e.1 = "package-manifest.json" }

/-- The per-step loop of `UpdateWorker.run` (updater.py lines 92–100). -/
def applyChain (h : String → String) (bp : String → String → Option String)
    (osFail : String → Bool) (man : Manifest) :
    List AnnPkg → World → Except (String × World) World
  | [], w => .ok w
  | p :: rest, w =>
    match applySingleUpdate h bp osFail man p w with
    | .error e => .error e
    | .ok w2 => applyChain h bp osFail man rest w2

/-- Python `str.strip()`: drop whitespace from both ends. -/
def pyStrip (s : String) : String :=
  ⟨((s.data.dropWhile Char.isWhitespace).reverse.dropWhile Char.isWhitespace).reverse⟩

/-- `get_current_app_version` (updater.py lines 39–48). -/
def getCurrentAppVersion (install : FS) : String :=
  match lookupA install "APPVERSION" with
  | some c => pyStrip c
  | none => "v0.0.0"

/-- Insert into a descending list (model of Python
`sorted(keys, reverse=True)` for distinct keys). -/
def insertDesc (x : String) : List String → List String
  | [] => [x]
  | y :: ys => if pyStrLt y x then x :: y :: ys else y :: insertDesc x ys

/-- `sorted(keys, reverse=True)`. -/
def pySortDesc (l : List String) : List String := l.foldr insertDesc []

/-- The body of `UpdateWorker.run` (updater.py lines 64–128): pre-checks,
manifest load, path resolution from the `APPVERSION` marker to the
largest version key, per-step application, `APPVERSION` write (an
`OSError` there only warns), temp-dir cleanup, relaunch check. -/
def runBody (h : String → String) (bp : String → String → Option String)
    (osFail : String → Bool) (writeVerFails : Bool) (w : World) :
    Except (String × World) World :=
  match w.temp with
  | none => .error ("manifest.json not found in temp directory.", w)
  | some td =>
    match td.manifest with
    | none => .error ("manifest.json not found in temp directory.", w)
    | some man =>
      if w.installExists = false then
        .error ("Installation directory not found", w)
      else
        match pySortDesc (man.versions.map Prod.fst) with
        | [] => .error ("No versions found in manifest.", w)
        | latest :: _ =>
          match findUpdatePathU man (getCurrentAppVersion w.install) latest with
          | .error _ => .error ("KeyError", w)
          | .ok updatePath =>
            if updatePath = [] then
              .error ("Could not find an update path.", w)
            else
              match applyChain h bp osFail man updatePath w with
              | .error e => .error e
              | .ok w2 =>
                let w3 : World := if writeVerFails then w2
                  else { w2 with install := setA w2.install "APPVERSION" latest }
                let w4 : World := { w3 with temp := none, extract := [] }
                if containsKeyA w4.install "main.exe" = false then
                  .error ("Could not find main executable to relaunch: main.exe", w4)
                else .ok w4

/-- `UpdateWorker.run`: the top-level try/except — any exception is
caught and reported as `finished(False, message)` (updater.py lines
130–132). -/
def run (h : String → String) (bp : String → String → Option String)
    (osFail : String → Bool) (writeVerFails : Bool) (w : World) : Bool × World :=
  match runBody h bp osFail writeVerFails w with
  | .ok w2 => (true, w2)
  | .error (_, w2) => (false, w2)

theorem applyChain_append (h : String → String) (bp : String → String → Option String)
    (osFail : String → Bool) (man : Manifest) (l1 l2 : List AnnPkg) (w : World) :
    applyChain h bp osFail man (l1 ++ l2) w
      = match applyChain h bp osFail man l1 w with
        | .error e => .error e
        | .ok w2 => applyChain h bp osFail man l2 w2 := by
  induction l1 generalizing w with
  | nil => rfl
  | cons p rest ih =>
    simp only [List.cons_append, applyChain]
    cases applySingleUpdate h bp osFail man p w with
    | error e => rfl
    | ok w2 => exact ih w2

theorem applyPatch_frame {h : String → String} {bp : String → String → Option String}
    {pi : PatchInfo} {w w2 : World}
    (hok : applyPatch h bp pi w = .ok w2) :
    w2.temp = w.temp ∧ w2.installExists = w.installExists := by
  unfold applyPatch at hok
  cases h1 : lookupA w.install pi.file with
  | none => simp only [h1] at hok; exact Except.noConfusion hok
  | some oldC =>
    simp only [h1] at hok
    cases h2 : lookupA w.extract pi.patch_file with
    | none => simp only [h2] at hok; exact Except.noConfusion hok
    | some patchC =>
      simp only [h2] at hok
      by_cases h3 : h oldC ≠ pi.old_sha256
      · rw [if_pos h3] at hok; exact Except.noConfusion hok
      · rw [if_neg h3] at hok
        cases h4 : bp oldC patchC with
        | none => simp only [h4] at hok; exact Except.noConfusion hok
        | some newC =>
          simp only [h4] at hok
          simp only [Except.ok.injEq] at hok
          subst hok
          exact ⟨rfl, rfl⟩

theorem applySingleUpdate_frame {h : String → String}
    {bp : String → String → Option String} {osFail : String → Bool}
    {man : Manifest} {ap : AnnPkg} {w w2 : World}
    (hok : applySingleUpdate h bp osFail man ap w = .ok w2) :
    w2.temp = w.temp ∧ w2.installExists = w.installExists := by
  unfold applySingleUpdate at hok
  cases h1 : w.temp with
  | none => simp only [h1] at hok; exact Except.noConfusion hok
  | some td =>
    simp only [h1] at hok
    cases h2 : lookupA td.archives ap.pkg.file with
    | none => simp only [h2] at hok; exact Except.noConfusion hok
    | some arch =>
      simp only [h2] at hok
      by_cases h3 : arch.hasMini = false
      · rw [if_pos h3] at hok; exact Except.noConfusion hok
      · rw [if_neg h3] at hok
        cases h4 : (match arch.patch with
            | some pi => applyPatch h bp pi
                ⟨some td, arch.files, w.install, w.installExists⟩
            | none => .ok ⟨some td, arch.files, w.install, w.installExists⟩) with
        | error e => simp only [h4] at hok; exact Except.noConfusion hok
        | ok w3 =>
          simp only [h4] at hok
          have hfr : w3.temp = w.temp ∧ w3.installExists = w.installExists := by
            cases h5 : arch.patch with
            | some pi =>
              rw [h5] at h4
              obtain ⟨ha, hb⟩ := applyPatch_frame h4
              exact ⟨ha.trans h1.symm, hb⟩
            | none =>
              rw [h5] at h4
              simp only [Except.ok.injEq] at h4
              subst h4
              exact ⟨h1.symm, rfl⟩
          cases h6 : lookupA man.versions ap.pkg.from_version with
          | none => simp only [h6] at hok; exact Except.noConfusion hok
          | some fromFM =>
            simp only [h6] at hok
            cases h7 : lookupA man.versions ap.download_from_tag with
            | none => simp only [h7] at hok; exact Except.noConfusion hok
            | some toFM =>
              simp only [h7] at hok
              simp only [Except.ok.injEq] at hok
              subst hok
              exact ⟨hfr.1.trans h1, hfr.2⟩

theorem applyChain_frame {h : String → String}
    {bp : String → String → Option String} {osFail : String → Bool}
    {man : Manifest} {ps : List AnnPkg} {w w2 : World}
    (hok : applyChain h bp osFail man ps w = .ok w2) :
    w2.temp = w.temp ∧ w2.installExists = w.installExists := by
  induction ps generalizing w with
  | nil =>
    simp only [applyChain, Except.ok.injEq] at hok
    subst hok
    exact ⟨rfl, rfl⟩
  | cons p rest ih =>
    simp only [applyChain] at hok
    cases hstep : applySingleUpdate h bp osFail man p w with
    | error e => simp only [hstep] at hok; exact Except.noConfusion hok
    | ok w3 =>
      simp only [hstep] at hok
      obtain ⟨h1, h2⟩ := applySingleUpdate_frame hstep
      obtain ⟨h3, h4⟩ := ih hok
      exact ⟨h3.trans h1, h4.trans h2⟩

theorem applySingleUpdate_mismatch {h : String → String}
    {bp : String → String → Option String} {osFail : String → Bool}
    {man : Manifest} {ap : AnnPkg} {w : World} {td : TempD} {arch : Archive}
    {pi : PatchInfo} {oldC patchC : String}
    (htd : w.temp = some td)
    (harch : lookupA td.archives ap.pkg.file = some arch)
    (hmini : arch.hasMini = true)
    (hpatch : arch.patch = some pi)
    (hold : lookupA w.install pi.file = some oldC)
    (hpf : lookupA arch.files pi.patch_file = some patchC)
    (hne : h oldC ≠ pi.old_sha256) :
    applySingleUpdate h bp osFail man ap w
      = .error ("Version mismatch. Cannot be patched safely.",
          { w with extract := arch.files }) := by
  unfold applySingleUpdate applyPatch
  simp only [htd, harch, hmini, hpatch, hold, hpf, Bool.true_eq_false, if_false]
  rw [if_pos hne]

/-- C2.  A declared-patch step whose installed target hashes differently
from the recorded `old_sha256` aborts the whole apply run with the
"Version mismatch" error at that exact point: the state handed back is
the pre-step state (earlier steps kept, install directory of the step
untouched, no delete/copy phase run), later steps are never attempted,
and `run` reports failure. -/
theorem patch_mismatch_aborts_run
    (h : String → String) (bp : String → String → Option String)
    (osFail : String → Bool) (wv : Bool)
    (w : World) (td : TempD) (man : Manifest) (latest : String) (restV : List String)
    (done : List AnnPkg) (step : AnnPkg) (rest2 : List AnnPkg)
    (w1 : World) (arch : Archive) (pi : PatchInfo) (oldC patchC : String)
    (h1 : w.temp = some td) (h2 : td.manifest = some man)
    (h3 : w.installExists = true)
    (h4 : pySortDesc (man.versions.map Prod.fst) = latest :: restV)
    (h5 : findUpdatePathU man (getCurrentAppVersion w.install) latest
        = .ok (done ++ step :: rest2))
    (h7 : applyChain h bp osFail man done w = .ok w1)
    (h8 : lookupA td.archives step.pkg.file = some arch)
    (h9 : arch.hasMini = true)
    (h10 : arch.patch = some pi)
    (h11 : lookupA w1.install pi.file = some oldC)
    (h12 : lookupA arch.files pi.patch_file = some patchC)
    (h13 : h oldC ≠ pi.old_sha256) :
    run h bp osFail wv w = (false, { w1 with extract := arch.files }) ∧
    ({ w1 with extract := arch.files } : World).install = w1.install := by
  have hw1t : w1.temp = some td := (applyChain_frame h7).1.trans h1
  have hstep : applySingleUpdate h bp osFail man step w1
      = .error ("Version mismatch. Cannot be patched safely.",
          { w1 with extract := arch.files }) :=
    applySingleUpdate_mismatch hw1t h8 h9 h10 h11 h12 h13
  have hchain : applyChain h bp osFail man (done ++ step :: rest2) w
      = .error ("Version mismatch. Cannot be patched safely.",
          { w1 with extract := arch.files }) := by
    rw [applyChain_append, h7]
    simp only [applyChain, hstep]
  refine ⟨?_, rfl⟩
  have h6 : ¬(done ++ step :: rest2 = []) := by simp
  unfold run runBody
  simp only [h1, h2, h3, Bool.true_eq_false, if_false, h4, h5, if_neg h6, hchain]

def c2Pi : PatchInfo := ⟨"main.exe", "main.exe-patch", "GOODHASH"⟩

def c2Pkg : Package := ⟨"up.zip", 5, "v1", none, none⟩

def c2Man : Manifest :=
  ⟨[("v1", [("main.exe", "Hm1")]), ("v2", [("main.exe", "Hm2")])],
   [("v2", [c2Pkg])]⟩

def c2Arch : Archive :=
  ⟨true, some c2Pi, [("main.exe-patch", "PC"), ("main.exe", "NEWEXE")]⟩

def c2W : World :=
  ⟨some ⟨some c2Man, [("up.zip", c2Arch)]⟩, [],
   [("APPVERSION", "v1"), ("main.exe", "EXE"), ("main.exe.bak", "BAK")], true⟩

def c2Hash : String → String := fun c => "H" ++ c

def c2Bp : String → String → Option String := fun _ _ => some "PATCHED"

def c2NoFail : String → Bool := fun _ => false

theorem patch_mismatch_aborts_run_witness :
    run c2Hash c2Bp c2NoFail false c2W
      = (false, { c2W with extract := c2Arch.files }) ∧
    ({ c2W with extract := c2Arch.files } : World).install = c2W.install :=
  patch_mismatch_aborts_run c2Hash c2Bp c2NoFail false c2W
    ⟨some c2Man, [("up.zip", c2Arch)]⟩ c2Man "v2" ["v1"]
    [] ⟨c2Pkg, "v2"⟩ [] c2W c2Arch c2Pi "EXE" "PC"
    rfl rfl rfl (by decide) (by rfl) rfl rfl rfl rfl rfl rfl (by decide)

def c4Pkg : Package := ⟨"up.zip", 7, "v1", none, none⟩

def c4Man : Manifest :=
  ⟨[("v1", [("a.txt", "HA")]), ("v2", [("a.txt", "HA2")])], [("v2", [c4Pkg])]⟩

def c4Arch : Archive := ⟨true, none, [("a.txt", "A2")]⟩

def c4W : World :=
  ⟨some ⟨some c4Man, [("up.zip", c4Arch)]⟩, [],
   [("APPVERSION", "v1"), ("a.txt", "A")], true⟩

def c4Hash : String → String := fun c => "H" ++ c

def c4Bp : String → String → Option String := fun _ _ => none

def c4NoFail : String → Bool := fun _ => false

/-- C4 counterexample: a run in which every apply step succeeds but the
relaunch executable `main.exe` is missing reports failure, yet the
`APPVERSION` marker has already been advanced from `v1` to `v2` — the
marker is not "overwritten only by a run that reports success". -/
theorem version_marker_advanced_on_failed_run :
    (run c4Hash c4Bp c4NoFail false c4W).1 = false ∧
    lookupA c4W.install "APPVERSION" = some "v1" ∧
    lookupA (run c4Hash c4Bp c4NoFail false c4W).2.install "APPVERSION"
      = some "v2" := by
  refine ⟨?_, rfl, ?_⟩ <;> rfl

/-- C4. (amended)  The `APPVERSION` marker is rewritten as soon as the
whole apply chain succeeds (when the marker write itself raises no
`OSError`), BEFORE the temp cleanup and the relaunch check: the reported
outcome of such a run is exactly the presence of `main.exe` in the final
install directory, so a failure-reporting run can leave the marker
already advanced. -/
theorem version_marker_written_before_relaunch_check
    (h : String → String) (bp : String → String → Option String)
    (osFail : String → Bool) (w : World) (td : TempD) (man : Manifest)
    (latest : String) (restV : List String) (path : List AnnPkg) (w2 : World)
    (h1 : w.temp = some td) (h2 : td.manifest = some man)
    (h3 : w.installExists = true)
    (h4 : pySortDesc (man.versions.map Prod.fst) = latest :: restV)
    (h5 : findUpdatePathU man (getCurrentAppVersion w.install) latest = .ok path)
    (h6 : path ≠ [])
    (h7 : applyChain h bp osFail man path w = .ok w2) :
    (run h bp osFail false w).2.install = setA w2.install "APPVERSION" latest ∧
    (run h bp osFail false w).1
      = containsKeyA (setA w2.install "APPVERSION" latest) "main.exe" := by
  unfold run runBody
  simp only [h1, h2, h3, Bool.true_eq_false, if_false, h4, h5, if_neg h6, h7,
    Bool.false_eq_true]
  cases hcb : containsKeyA (setA w2.install "APPVERSION" latest) "main.exe" with
  | false => rw [if_pos rfl]; exact ⟨rfl, rfl⟩
  | true => rw [if_neg (by decide : ¬(true = false))]; exact ⟨rfl, rfl⟩

theorem version_marker_written_before_relaunch_check_witness :
    (run c4Hash c4Bp c4NoFail false c4W).2.install
        = setA (⟨some ⟨some c4Man, [("up.zip", c4Arch)]⟩, [],
            [("APPVERSION", "v1"), ("a.txt", "A2")], true⟩ : World).install
            "APPVERSION" "v2" ∧
    (run c4Hash c4Bp c4NoFail false c4W).1
      = containsKeyA (setA (⟨some ⟨some c4Man, [("up.zip", c4Arch)]⟩, [],
            [("APPVERSION", "v1"), ("a.txt", "A2")], true⟩ : World).install
            "APPVERSION" "v2") "main.exe" :=
  version_marker_written_before_relaunch_check c4Hash c4Bp c4NoFail c4W
    ⟨some c4Man, [("up.zip", c4Arch)]⟩ c4Man "v2" ["v1"]
    [⟨c4Pkg, "v2"⟩]
    ⟨some ⟨some c4Man, [("up.zip", c4Arch)]⟩, [],
      [("APPVERSION", "v1"), ("a.txt", "A2")], true⟩
    rfl rfl rfl (by decide) rfl (by decide) rfl

theorem mem_eraseKey_of_ne {α : Type} {l : List (String × α)} {key q : String}
    {c : α} (hm : (q, c) ∈ l) (hne : q ≠ key) : (q, c) ∈ eraseKey l key := by
  induction l with
  | nil => cases hm
  | cons e rest ih =>
    obtain ⟨k, v⟩ := e
    simp only [eraseKey]
    by_cases hk : k = key
    · rw [if_pos hk]
      cases List.mem_cons.mp hm with
      | inl he =>
        exfalso
        simp only [Prod.mk.injEq] at he
        exact hne (he.1.symm ▸ hk)
      | inr hr => exact hr
    · rw [if_neg hk]
      cases List.mem_cons.mp hm with
      | inl he => exact he ▸ List.mem_cons_self _ _
      | inr hr => exact List.mem_cons_of_mem _ (ih hr)

theorem delPathFS_removed {fs : FS} {p q c : String}
    (hm : (q, c) ∈ fs) (hnm : (q, c) ∉ delPathFS fs p) :
    q = p ∨ strStartsWith q (p ++ "/") = true := by
  unfold delPathFS at hnm
  by_cases hf : isFileFS fs p = true
  · rw [if_pos hf] at hnm
    by_cases hq : q = p
    · exact Or.inl hq
    · exact absurd (mem_eraseKey_of_ne hm hq) hnm
  · rw [if_neg hf] at hnm
    by_cases hd : isDirFS fs p = true
    · rw [if_pos hd] at hnm
      by_cases hs : strStartsWith q (p ++ "/") = true
      · exact Or.inr hs
      · exfalso
        refine hnm (List.mem_filter.mpr ⟨hm, ?_⟩)
        simp only [Bool.not_eq_true] at hs
        simp [hs]
    · rw [if_neg hd] at hnm
      exact absurd hm hnm

/-- C10.  The delete-removed-files phase only ever removes an install
entry on account of a listed path that contains no `".."` and whose
deletion raises no `OSError`, and the removed entry is that path itself
or lies under it — so a `".."`-containing path (one that could escape the
install directory) never causes a deletion, and a failing deletion is
skipped without aborting (the phase is a total function that always
continues to the next path). -/
theorem deleteOldFiles_safe (osFail : String → Bool) (files : List String)
    (fs : FS) : ∀ q c, (q, c) ∈ fs → (q, c) ∉ deleteOldFiles osFail files fs →
    ∃ p, p ∈ files ∧ containsDD p = false ∧ osFail p = false ∧
      (q = p ∨ strStartsWith q (p ++ "/") = true) := by
  induction files generalizing fs with
  | nil => intro q c hm hnm; exact absurd hm hnm
  | cons p rest ih =>
    intro q c hm hnm
    simp only [deleteOldFiles] at hnm
    cases hdd : containsDD p with
    | true =>
      rw [if_pos hdd] at hnm
      obtain ⟨p2, hp2, hrest⟩ := ih fs q c hm hnm
      exact ⟨p2, List.mem_cons_of_mem _ hp2, hrest⟩
    | false =>
      rw [if_neg (by simp [hdd])] at hnm
      cases hof : osFail p with
      | true =>
        rw [if_pos hof] at hnm
        obtain ⟨p2, hp2, hrest⟩ := ih fs q c hm hnm
        exact ⟨p2, List.mem_cons_of_mem _ hp2, hrest⟩
      | false =>
        rw [if_neg (by simp [hof])] at hnm
        by_cases hmem : (q, c) ∈ delPathFS fs p
        · obtain ⟨p2, hp2, hrest⟩ := ih (delPathFS fs p) q c hmem hnm
          exact ⟨p2, List.mem_cons_of_mem _ hp2, hrest⟩
        · exact ⟨p, List.mem_cons_self _ _, hdd, hof,
            delPathFS_removed hm hmem⟩

theorem deleteOldFiles_safe_witness :
    (("x", "c") ∈ ([("x", "c")] : FS)) ∧
    (("x", "c") ∉ deleteOldFiles (fun _ => false) ["x"] [("x", "c")]) ∧
    (∃ p, p ∈ ["x"] ∧ containsDD p = false ∧ (fun (_ : String) => false) p = false ∧
      ("x" = p ∨ strStartsWith "x" (p ++ "/") = true)) :=
  ⟨by decide, by decide,
   deleteOldFiles_safe (fun _ => false) ["x"] [("x", "c")] "x" "c"
     (by decide) (by decide)⟩

def c5Pkg : Package := ⟨"up.zip", 3, "v1", none, none⟩

def c5Man : Manifest :=
  ⟨[("v1", [("../evil", "HE"), ("keep.txt", "HK")]),
    ("v2", [("keep.txt", "HK"), ("new.txt", "HN")])],
   [("v2", [c5Pkg])]⟩

def c5Arch : Archive := ⟨true, none, [("new.txt", "N")]⟩

def c5W : World :=
  ⟨some ⟨some c5Man, [("up.zip", c5Arch)]⟩, [],
   [("../evil", "E"), ("keep.txt", "K")], true⟩

def c5Hash : String → String := fun c => "H" ++ c

def c5Bp : String → String → Option String := fun _ _ => none

def c5NoFail : String → Bool := fun _ => false

/-- C5 counterexample: `../evil` is listed in the step's from manifest and
absent from its to manifest, the step succeeds, no `OSError` occurs, and
yet the installed entry `../evil` survives — the `".."` guard of
`_delete_old_files` skips it, so "every path present in from but absent
from to is deleted" is false as stated. -/
theorem dotdot_removed_path_survives :
    (∃ fromFM toFM,
      lookupA c5Man.versions "v1" = some fromFM ∧
      lookupA c5Man.versions "v2" = some toFM ∧
      containsKeyA fromFM "../evil" = true ∧
      containsKeyA toFM "../evil" = false) ∧
    (∃ w2, applySingleUpdate c5Hash c5Bp c5NoFail c5Man ⟨c5Pkg, "v2"⟩ c5W
        = .ok w2 ∧
      lookupA w2.install "../evil" = some "E") :=
  ⟨⟨_, _, rfl, rfl, rfl, rfl⟩, ⟨_, rfl, rfl⟩⟩

/-- The generated patch file name
`f"{to_executable_path.name}-{from_version}-to-{to_version}.patch"`. -/
def patchNameOf (exeName fromV toV : String) : String :=
  exeName ++ "-" ++ fromV ++ "-to-" ++ toV ++ ".patch"

/-- The changed-file scan of `create_differential_package`
(create_update_package.py lines 86–88): every to-manifest path missing
from the from manifest or carrying a different hash. -/
def changedFiles (fromFM toFM : FileManifest) : List String :=
  (toFM.filter fun fh =>
    match lookupA fromFM fh.1 with
    | none => true
    | some oldh => oldh != fh.2).map Prod.fst

/-- Python `list.remove`: drop the first occurrence (only called on
lists that contain the element). -/
def removeFirstStr : List String → String → List String
  | [], _ => []
  | x :: xs, a => if x = a then xs else x :: removeFirstStr xs a

/-- `generate_manifest_for_build` (create_update_package.py lines 27–34)
over the build tree `buildFiles` (path ↦ content), hashing with `h` and
excluding the `torch/` prefix. -/
def generateManifestForBuild (h : String → String)
    (buildFiles : List (String × String)) : FileManifest :=
  (buildFiles.filter fun f => !(strStartsWith f.1 "torch/")).map
    fun f => (f.1, h f.2)

/-- `create_differential_package` (create_update_package.py lines
72–128): the changed files are zipped (a missing build file would make
`zipf.write` raise, modelled as content `""`); when the executable
changed and the old executable is available (`fromExe`), a binary patch
(`bd old new`) replaces it and the mini-manifest records `PatchInfo`.
Returns the built archive and the master-manifest package record (which
never carries the patch info — only the mini-manifest inside the zip
does); `none` when nothing changed.  `pkgSize` abstracts
`os.path.getsize`. -/
def createDifferentialPackage (h : String → String)
    (bd : String → String → String) (fromV toV : String)
    (fromFM toFM : FileManifest) (fromExe : Option String)
    (exeName : String) (buildFiles : List (String × String))
    (pkgSize : Nat) : Option (Archive × Package) :=
  let packageName := "update-" ++ fromV ++ "-to-" ++ toV ++ ".zip"
  let patchName := patchNameOf exeName fromV toV
  let ftp := changedFiles fromFM toFM
  if ftp = [] then none
  else
    match (if ftp.contains exeName then fromExe else none) with
    | some oldExe =>
      let pinfo : PatchInfo := ⟨exeName, patchName, h oldExe⟩
      let files2 := removeFirstStr ftp exeName ++ [patchName]
      let contents := files2.map fun f =>
        (f, if f = patchName then bd oldExe ((lookupA buildFiles exeName).getD "")
            else (lookupA buildFiles f).getD "")
      some (⟨true, some pinfo, contents⟩, ⟨packageName, pkgSize, fromV, none, none⟩)
    | none =>
      let contents := ftp.map fun f => (f, (lookupA buildFiles f).getD "")
      some (⟨true, none, contents⟩, ⟨packageName, pkgSize, fromV, none, none⟩)

theorem mem_eraseKey {α : Type} {l : List (String × α)} {k : String}
    {e : String × α} (h : e ∈ eraseKey l k) : e ∈ l := by
  induction l with
  | nil => cases h
  | cons p rest ih =>
    obtain ⟨k2, v⟩ := p
    simp only [eraseKey] at h
    by_cases hk : k2 = k
    · rw [if_pos hk] at h
      exact List.mem_cons_of_mem _ h
    · rw [if_neg hk] at h
      cases List.mem_cons.mp h with
      | inl he => exact he ▸ List.mem_cons_self _ _
      | inr hr => exact List.mem_cons_of_mem _ (ih hr)

theorem lookupA_eraseKey_none {α : Type} {l : List (String × α)} {k f : String}
    (h : lookupA l f = none) : lookupA (eraseKey l k) f = none := by
  induction l with
  | nil => rfl
  | cons p rest ih =>
    obtain ⟨k2, v⟩ := p
    simp only [lookupA] at h
    by_cases hf : k2 = f
    · rw [if_pos hf] at h; exact Option.noConfusion h
    · rw [if_neg hf] at h
      simp only [eraseKey]
      by_cases hk : k2 = k
      · rw [if_pos hk]; exact h
      · rw [if_neg hk]
        simp only [lookupA, if_neg hf]
        exact ih h

theorem lookupA_eraseKey_self {α : Type} {l : List (String × α)} {k : String}
    (hnd : (l.map Prod.fst).Nodup) : lookupA (eraseKey l k) k = none := by
  induction l with
  | nil => rfl
  | cons p rest ih =>
    obtain ⟨k2, v⟩ := p
    simp only [List.map_cons, List.nodup_cons] at hnd
    simp only [eraseKey]
    by_cases hk : k2 = k
    · rw [if_pos hk]
      subst hk
      exact lookupA_none_of_not_mem hnd.1
    · rw [if_neg hk]
      simp only [lookupA, if_neg hk]
      exact ih hnd.2

theorem lookupA_eraseKey_ne {α : Type} {l : List (String × α)} {k f : String}
    (hne : f ≠ k) : lookupA (eraseKey l k) f = lookupA l f := by
  induction l with
  | nil => rfl
  | cons p rest ih =>
    obtain ⟨k2, v⟩ := p
    simp only [eraseKey]
    by_cases hk : k2 = k
    · rw [if_pos hk]
      have hf : ¬(k2 = f) := fun hf2 => hne (hf2 ▸ hk)
      simp only [lookupA, if_neg hf]
    · rw [if_neg hk]
      simp only [lookupA]
      by_cases hf : k2 = f
      · rw [if_pos hf, if_pos hf]
      · rw [if_neg hf, if_neg hf]
        exact ih

theorem keys_eraseKey_sublist {α : Type} (l : List (String × α)) (k : String) :
    ((eraseKey l k).map Prod.fst).Sublist (l.map Prod.fst) := by
  induction l with
  | nil => exact List.Sublist.refl _
  | cons p rest ih =>
    obtain ⟨k2, v⟩ := p
    simp only [eraseKey]
    by_cases hk : k2 = k
    · rw [if_pos hk]
      exact (List.sublist_cons_self _ _)
    · rw [if_neg hk]
      simp only [List.map_cons]
      exact List.Sublist.cons₂ _ ih

theorem lookupA_filter_none {α : Type} {l : List (String × α)}
    {q : String × α → Bool} {f : String}
    (h : lookupA l f = none) : lookupA (l.filter q) f = none := by
  induction l with
  | nil => rfl
  | cons p rest ih =>
    obtain ⟨k2, v⟩ := p
    simp only [lookupA] at h
    by_cases hf : k2 = f
    · rw [if_pos hf] at h; exact Option.noConfusion h
    · rw [if_neg hf] at h
      simp only [List.filter]
      cases q (k2, v) with
      | false => exact ih h
      | true =>
        simp only [lookupA, if_neg hf]
        exact ih h

theorem lookupA_filter_keep {α : Type} {l : List (String × α)}
    {q : String × α → Bool} {f : String}
    (h : ∀ c, q (f, c) = true) : lookupA (l.filter q) f = lookupA l f := by
  induction l with
  | nil => rfl
  | cons p rest ih =>
    obtain ⟨k2, v⟩ := p
    by_cases hf : k2 = f
    · subst hf
      rw [List.filter_cons_of_pos (h v)]
      simp [lookupA]
    · cases hq : q (k2, v) with
      | false =>
        rw [List.filter_cons_of_neg (by simp [hq])]
        simp only [lookupA, if_neg hf]
        exact ih
      | true =>
        rw [List.filter_cons_of_pos hq]
        simp only [lookupA, if_neg hf]
        exact ih

theorem keys_filter_sublist {α : Type} (l : List (String × α))
    (q : String × α → Bool) :
    ((l.filter q).map Prod.fst).Sublist (l.map Prod.fst) :=
  (l.filter_sublist).map Prod.fst

theorem delPathFS_nodup {fs : FS} {p : String}
    (hnd : (fs.map Prod.fst).Nodup) :
    ((delPathFS fs p).map Prod.fst).Nodup := by
  unfold delPathFS
  by_cases hf : isFileFS fs p = true
  · rw [if_pos hf]
    exact hnd.sublist (keys_eraseKey_sublist fs p)
  · rw [if_neg hf]
    by_cases hd : isDirFS fs p = true
    · rw [if_pos hd]
      exact hnd.sublist (keys_filter_sublist fs _)
    · rw [if_neg hd]; exact hnd

theorem lookupA_delPathFS_self {fs : FS} {p : String}
    (hnd : (fs.map Prod.fst).Nodup) : lookupA (delPathFS fs p) p = none := by
  unfold delPathFS
  by_cases hf : isFileFS fs p = true
  · rw [if_pos hf]
    exact lookupA_eraseKey_self hnd
  · have hl : lookupA fs p = none := by
      cases hl2 : lookupA fs p with
      | none => rfl
      | some v =>
        exfalso
        apply hf
        unfold isFileFS containsKeyA
        rw [hl2]
        rfl
    rw [if_neg hf]
    by_cases hd : isDirFS fs p = true
    · rw [if_pos hd]
      exact lookupA_filter_none hl
    · rw [if_neg hd]; exact hl

theorem lookupA_delPathFS_none {fs : FS} {p f : String}
    (h : lookupA fs f = none) : lookupA (delPathFS fs p) f = none := by
  unfold delPathFS
  by_cases hf : isFileFS fs p = true
  · rw [if_pos hf]; exact lookupA_eraseKey_none h
  · rw [if_neg hf]
    by_cases hd : isDirFS fs p = true
    · rw [if_pos hd]; exact lookupA_filter_none h
    · rw [if_neg hd]; exact h

theorem lookupA_delPathFS_ne {fs : FS} {p f : String} (hne : f ≠ p)
    (hpre : strStartsWith f (p ++ "/") = false) :
    lookupA (delPathFS fs p) f = lookupA fs f := by
  unfold delPathFS
  by_cases hf : isFileFS fs p = true
  · rw [if_pos hf]; exact lookupA_eraseKey_ne hne
  · rw [if_neg hf]
    by_cases hd : isDirFS fs p = true
    · rw [if_pos hd]
      refine lookupA_filter_keep ?_
      intro c
      simp [hpre]
    · rw [if_neg hd]

theorem deleteOldFiles_nodup {osFail : String → Bool} {files : List String}
    {fs : FS} (hnd : (fs.map Prod.fst).Nodup) :
    ((deleteOldFiles osFail files fs).map Prod.fst).Nodup := by
  induction files generalizing fs with
  | nil => exact hnd
  | cons p rest ih =>
    simp only [deleteOldFiles]
    by_cases hdd : containsDD p = true
    · rw [if_pos hdd]; exact ih hnd
    · rw [if_neg hdd]
      by_cases hof : osFail p = true
      · rw [if_pos hof]; exact ih hnd
      · rw [if_neg hof]; exact ih (delPathFS_nodup hnd)

theorem deleteOldFiles_none {osFail : String → Bool} {files : List String}
    {fs : FS} {f : String} (h : lookupA fs f = none) :
    lookupA (deleteOldFiles osFail files fs) f = none := by
  induction files generalizing fs with
  | nil => exact h
  | cons p rest ih =>
    simp only [deleteOldFiles]
    by_cases hdd : containsDD p = true
    · rw [if_pos hdd]; exact ih h
    · rw [if_neg hdd]
      by_cases hof : osFail p = true
      · rw [if_pos hof]; exact ih h
      · rw [if_neg hof]; exact ih (lookupA_delPathFS_none h)

theorem deleteOldFiles_mem_clean {osFail : String → Bool} {files : List String}
    {fs : FS} {f : String} (hmem : f ∈ files) (hdd : containsDD f = false)
    (hof : osFail f = false) (hnd : (fs.map Prod.fst).Nodup) :
    lookupA (deleteOldFiles osFail files fs) f = none := by
  induction files generalizing fs with
  | nil => cases hmem
  | cons p rest ih =>
    simp only [deleteOldFiles]
    by_cases hpf : p = f
    · subst hpf
      rw [if_neg (by simp [hdd]), if_neg (by simp [hof])]
      exact deleteOldFiles_none (lookupA_delPathFS_self hnd)
    · have hmem2 : f ∈ rest := by
        cases List.mem_cons.mp hmem with
        | inl he => exact absurd he.symm hpf
        | inr hr => exact hr
      by_cases hdd2 : containsDD p = true
      · rw [if_pos hdd2]; exact ih hmem2 hnd
      · rw [if_neg hdd2]
        by_cases hof2 : osFail p = true
        · rw [if_pos hof2]; exact ih hmem2 hnd
        · rw [if_neg hof2]; exact ih hmem2 (delPathFS_nodup hnd)

theorem deleteOldFiles_preserved {osFail : String → Bool} {files : List String}
    {fs : FS} {f : String}
    (h : ∀ p ∈ files, containsDD p = true ∨ osFail p = true ∨
      (f ≠ p ∧ strStartsWith f (p ++ "/") = false)) :
    lookupA (deleteOldFiles osFail files fs) f = lookupA fs f := by
  induction files generalizing fs with
  | nil => rfl
  | cons p rest ih =>
    simp only [deleteOldFiles]
    have hrest : ∀ p2 ∈ rest, containsDD p2 = true ∨ osFail p2 = true ∨
        (f ≠ p2 ∧ strStartsWith f (p2 ++ "/") = false) :=
      fun p2 hp2 => h p2 (List.mem_cons_of_mem _ hp2)
    by_cases hdd : containsDD p = true
    · rw [if_pos hdd]; exact ih hrest
    · rw [if_neg hdd]
      by_cases hof : osFail p = true
      · rw [if_pos hof]; exact ih hrest
      · rw [if_neg hof]
        have hp := h p (List.mem_cons_self _ _)
        rcases hp with hp | hp | ⟨hne, hpre⟩
        · exact absurd hp hdd
        · exact absurd hp hof
        · rw [ih hrest]
          exact lookupA_delPathFS_ne hne hpre

theorem copyNewFiles_lookup_ne {ext : List (String × String)} {fs : FS}
    {f : String} (h : ∀ e ∈ ext, e.1 ≠ f) :
    lookupA (copyNewFiles ext fs) f = lookupA fs f := by
  induction ext generalizing fs with
  | nil => rfl
  | cons e rest ih =>
    obtain ⟨rel, c⟩ := e
    simp only [copyNewFiles]
    have hrest : ∀ e2 ∈ rest, e2.1 ≠ f :=
      fun e2 he2 => h e2 (List.mem_cons_of_mem _ he2)
    by_cases hb : baseName rel = "package-manifest.json"
    · rw [if_pos hb]; exact ih hrest
    · rw [if_neg hb]
      rw [ih hrest]
      exact lookupA_setA_ne fs c (h (rel, c) (List.mem_cons_self _ _))

theorem mem_removeFirstStr {l : List String} {a x : String}
    (h : x ∈ removeFirstStr l a) : x ∈ l := by
  induction l with
  | nil => cases h
  | cons y ys ih =>
    simp only [removeFirstStr] at h
    by_cases hy : y = a
    · rw [if_pos hy] at h
      exact List.mem_cons_of_mem _ h
    · rw [if_neg hy] at h
      cases List.mem_cons.mp h with
      | inl he => exact he ▸ List.mem_cons_self _ _
      | inr hr => exact List.mem_cons_of_mem _ (ih hr)

theorem lookupA_eq_of_mem_nodup {α : Type} {l : List (String × α)}
    {k : String} {v : α} (hnd : (l.map Prod.fst).Nodup) (hm : (k, v) ∈ l) :
    lookupA l k = some v := by
  induction l with
  | nil => cases hm
  | cons p rest ih =>
    obtain ⟨k2, v2⟩ := p
    simp only [List.map_cons, List.nodup_cons] at hnd
    simp only [lookupA]
    cases List.mem_cons.mp hm with
    | inl he =>
      simp only [Prod.mk.injEq] at he
      rw [if_pos he.1.symm]
      rw [he.2]
    | inr hr =>
      have hk : k2 ≠ k := by
        intro hk
        subst hk
        exact hnd.1 (List.mem_map.mpr ⟨(k2, v), hr, rfl⟩)
      rw [if_neg hk]
      exact ih hnd.2 hr

theorem mem_changedFiles {fromFM toFM : FileManifest} {f : String}
    (h : f ∈ changedFiles fromFM toFM) : containsKeyA toFM f = true := by
  unfold changedFiles at h
  obtain ⟨⟨k, nh⟩, hk, hf⟩ := List.mem_map.mp h
  obtain ⟨hmem, _⟩ := List.mem_filter.mp hk
  have hkeys : f ∈ toFM.map Prod.fst :=
    hf ▸ List.mem_map.mpr ⟨(k, nh), hmem, rfl⟩
  unfold containsKeyA
  rw [Bool.eq_iff_iff]
  simp only [iff_true]
  exact (lookupA_isSome_iff_mem_keys toFM f).mpr hkeys

theorem contains_mem_str {l : List String} {a : String}
    (h : l.contains a = true) : a ∈ l := by
  induction l with
  | nil => cases h
  | cons x xs ih =>
    simp only [List.contains, List.elem] at h
    by_cases hx : (a == x) = true
    · exact (beq_iff_eq.mp hx) ▸ (List.mem_cons_self _ _)
    · rw [Bool.eq_false_iff.mpr hx] at h
      exact List.mem_cons_of_mem _ (ih h)

theorem not_mem_changedFiles {fromFM toFM : FileManifest} {f hsh : String}
    (hndT : (toFM.map Prod.fst).Nodup)
    (h1 : lookupA fromFM f = some hsh) (h2 : lookupA toFM f = some hsh) :
    f ∉ changedFiles fromFM toFM := by
  intro hmem
  unfold changedFiles at hmem
  obtain ⟨⟨k, nh⟩, hk, hf⟩ := List.mem_map.mp hmem
  obtain ⟨hmemT, hq⟩ := List.mem_filter.mp hk
  have hkf : k = f := hf
  subst hkf
  have hnh : nh = hsh := by
    have := lookupA_eq_of_mem_nodup hndT hmemT
    rw [h2] at this
    exact (Option.some.inj this).symm
  subst hnh
  rw [h1] at hq
  simp at hq

theorem createDiff_spec {h : String → String} {bd : String → String → String}
    {fromV toV : String} {fromFM toFM : FileManifest} {fromExe : Option String}
    {exeName : String} {buildFiles : List (String × String)} {pkgSize : Nat}
    {arch : Archive} {pkgrec : Package}
    (hb : createDifferentialPackage h bd fromV toV fromFM toFM fromExe
        exeName buildFiles pkgSize = some (arch, pkgrec)) :
    arch.hasMini = true ∧
    (∀ e ∈ arch.files, e.1 = patchNameOf exeName fromV toV ∨
      e.1 ∈ changedFiles fromFM toFM) ∧
    (∀ pi, arch.patch = some pi → pi.file = exeName ∧
      pi.patch_file = patchNameOf exeName fromV toV ∧
      exeName ∈ changedFiles fromFM toFM) := by
  simp only [createDifferentialPackage] at hb
  by_cases hn : changedFiles fromFM toFM = []
  · rw [if_pos hn] at hb
    exact Option.noConfusion hb
  · rw [if_neg hn] at hb
    by_cases hc : (changedFiles fromFM toFM).contains exeName = true
    · rw [if_pos hc] at hb
      cases hfe : fromExe with
      | none =>
        rw [hfe] at hb
        simp only [Option.some.injEq, Prod.mk.injEq] at hb
        obtain ⟨harch, hpkg⟩ := hb
        subst harch
        refine ⟨rfl, ?_, ?_⟩
        · intro e he
          obtain ⟨f2, hf2, hfe2⟩ := List.mem_map.mp he
          rw [← hfe2]
          exact Or.inr hf2
        · intro pi hpi
          exact Option.noConfusion hpi
      | some oldExe =>
        rw [hfe] at hb
        simp only [Option.some.injEq, Prod.mk.injEq] at hb
        obtain ⟨harch, hpkg⟩ := hb
        subst harch
        refine ⟨rfl, ?_, ?_⟩
        · intro e he
          obtain ⟨f2, hf2, hfe2⟩ := List.mem_map.mp he
          rw [← hfe2]
          simp only
          cases List.mem_append.mp hf2 with
          | inl hl => exact Or.inr (mem_removeFirstStr hl)
          | inr hr =>
            cases List.mem_cons.mp hr with
            | inl he2 => exact Or.inl he2
            | inr hc2 => cases hc2
        · intro pi hpi
          have hpi2 : pi = ⟨exeName, patchNameOf exeName fromV toV, h oldExe⟩ :=
            (Option.some.inj hpi).symm
          subst hpi2
          exact ⟨rfl, rfl, contains_mem_str hc⟩
    · rw [if_neg hc] at hb
      simp only [Option.some.injEq, Prod.mk.injEq] at hb
      obtain ⟨harch, hpkg⟩ := hb
      subst harch
      refine ⟨rfl, ?_, ?_⟩
      · intro e he
        obtain ⟨f2, hf2, hfe2⟩ := List.mem_map.mp he
        rw [← hfe2]
        exact Or.inr hf2
      · intro pi hpi
        exact Option.noConfusion hpi

theorem applyPatch_ok_shape {h : String → String}
    {bp : String → String → Option String} {pi : PatchInfo} {w w3 : World}
    (hok : applyPatch h bp pi w = .ok w3) :
    ∃ oldC newC, lookupA w.install pi.file = some oldC ∧
      w3.install = setA w.install pi.file newC ∧
      w3.extract = eraseKey (eraseKey w.extract pi.patch_file) pi.file := by
  unfold applyPatch at hok
  cases h1 : lookupA w.install pi.file with
  | none => rw [h1] at hok; exact Except.noConfusion hok
  | some oldC =>
    simp only [h1] at hok
    cases h2 : lookupA w.extract pi.patch_file with
    | none => simp only [h2] at hok; exact Except.noConfusion hok
    | some patchC =>
      simp only [h2] at hok
      by_cases h3 : h oldC ≠ pi.old_sha256
      · rw [if_pos h3] at hok; exact Except.noConfusion hok
      · rw [if_neg h3] at hok
        cases h4 : bp oldC patchC with
        | none => simp only [h4] at hok; exact Except.noConfusion hok
        | some newC =>
          simp only [h4, Except.ok.injEq] at hok
          subst hok
          exact ⟨oldC, newC, rfl, rfl, rfl⟩

theorem step_core_removes {osFail : String → Bool} {fromFM toFM : FileManifest}
    {ext : List (String × String)} {inst1 : FS} {PN f : String}
    (hnd : (inst1.map Prod.fst).Nodup)
    (hext : ∀ e ∈ ext, e.1 = PN ∨ e.1 ∈ changedFiles fromFM toFM)
    (hfrom : containsKeyA fromFM f = true) (hto : containsKeyA toFM f = false)
    (hdd : containsDD f = false) (hof : osFail f = false) (hpn : f ≠ PN) :
    lookupA (copyNewFiles ext (deleteOldFiles osFail
      ((fromFM.map Prod.fst).filter fun g => !(containsKeyA toFM g)) inst1)) f
      = none := by
  have hne : ∀ e ∈ ext, e.1 ≠ f := by
    intro e he hef
    cases hext e he with
    | inl h1 => exact hpn (hef ▸ h1)
    | inr h2 =>
      have hm := mem_changedFiles (hef ▸ h2)
      rw [hm] at hto
      exact Bool.noConfusion hto
  rw [copyNewFiles_lookup_ne hne]
  have hmem : f ∈ (fromFM.map Prod.fst).filter fun g => !(containsKeyA toFM g) := by
    refine List.mem_filter.mpr ⟨?_, by simp [hto]⟩
    exact (lookupA_isSome_iff_mem_keys fromFM f).mp hfrom
  exact deleteOldFiles_mem_clean hmem hdd hof hnd

theorem step_core_preserves {osFail : String → Bool}
    {fromFM toFM : FileManifest} {ext : List (String × String)} {inst1 : FS}
    {PN f hsh : String}
    (hndT : (toFM.map Prod.fst).Nodup)
    (hext : ∀ e ∈ ext, e.1 = PN ∨ e.1 ∈ changedFiles fromFM toFM)
    (h1 : lookupA fromFM f = some hsh) (h2 : lookupA toFM f = some hsh)
    (hpn : f ≠ PN)
    (hpre : ∀ g, containsKeyA fromFM g = true → containsKeyA toFM g = false →
      strStartsWith f (g ++ "/") = false) :
    lookupA (copyNewFiles ext (deleteOldFiles osFail
      ((fromFM.map Prod.fst).filter fun g => !(containsKeyA toFM g)) inst1)) f
      = lookupA inst1 f := by
  have hnotch : f ∉ changedFiles fromFM toFM := not_mem_changedFiles hndT h1 h2
  have hne : ∀ e ∈ ext, e.1 ≠ f := by
    intro e he hef
    cases hext e he with
    | inl hh => exact hpn (hef ▸ hh)
    | inr hh => exact hnotch (hef ▸ hh)
  rw [copyNewFiles_lookup_ne hne]
  refine deleteOldFiles_preserved ?_
  intro p hpmem
  obtain ⟨hpk, hpq⟩ := List.mem_filter.mp hpmem
  have hpto : containsKeyA toFM p = false := by
    cases hcb : containsKeyA toFM p with
    | false => rfl
    | true => rw [hcb] at hpq; exact Bool.noConfusion hpq
  have hpfrom : containsKeyA fromFM p = true :=
    (lookupA_isSome_iff_mem_keys fromFM p).mpr hpk
  refine Or.inr (Or.inr ⟨?_, hpre p hpfrom hpto⟩)
  intro hfp
  subst hfp
  unfold containsKeyA at hpto
  rw [h2] at hpto
  exact Bool.noConfusion hpto

/-- C5. (amended)  For an apply step whose archive was produced by
`create_differential_package` from the same from/to manifests the step
resolves: (a) every path present in the from manifest and absent from the
to manifest is removed from the install directory, except paths that
contain `".."` (skipped by the safety guard), paths whose deletion raises
`OSError` (logged and skipped), and a path colliding with the generated
patch-file name; (b) every file with an identical hash in the from and to
manifests keeps its installed content, provided it does not collide with
the generated patch-file name and no removed path is a directory prefix
of it. -/
theorem apply_step_removes_and_preserves
    (h : String → String) (bp : String → String → Option String)
    (bd : String → String → String) (osFail : String → Bool)
    (man : Manifest) (ap : AnnPkg) (w w2 : World) (td : TempD)
    (arch : Archive) (pkgrec : Package) (fromFM toFM : FileManifest)
    (fromExe : Option String) (exeName : String)
    (buildFiles : List (String × String)) (pkgSize : Nat)
    (hb : createDifferentialPackage h bd ap.pkg.from_version
        ap.download_from_tag fromFM toFM fromExe exeName buildFiles pkgSize
        = some (arch, pkgrec))
    (htd : w.temp = some td)
    (harch : lookupA td.archives ap.pkg.file = some arch)
    (hfm : lookupA man.versions ap.pkg.from_version = some fromFM)
    (htm : lookupA man.versions ap.download_from_tag = some toFM)
    (hndI : (w.install.map Prod.fst).Nodup)
    (hndT : (toFM.map Prod.fst).Nodup)
    (hok : applySingleUpdate h bp osFail man ap w = .ok w2) :
    (∀ f, containsKeyA fromFM f = true → containsKeyA toFM f = false →
      containsDD f = false → osFail f = false →
      f ≠ patchNameOf exeName ap.pkg.from_version ap.download_from_tag →
      lookupA w2.install f = none) ∧
    (∀ f hsh, lookupA fromFM f = some hsh → lookupA toFM f = some hsh →
      f ≠ patchNameOf exeName ap.pkg.from_version ap.download_from_tag →
      (∀ g, containsKeyA fromFM g = true → containsKeyA toFM g = false →
        strStartsWith f (g ++ "/") = false) →
      lookupA w2.install f = lookupA w.install f) := by
  obtain ⟨hmini, hfiles, hpatch⟩ := createDiff_spec hb
  unfold applySingleUpdate at hok
  simp only [htd, harch, hmini, Bool.true_eq_false, if_false] at hok
  cases hp : arch.patch with
  | none =>
    simp only [hp, hfm, htm, Except.ok.injEq] at hok
    subst hok
    constructor
    · intro f hfrom hto hdd hof hpn
      exact step_core_removes hndI hfiles hfrom hto hdd hof hpn
    · intro f hsh h1 h2 hpn hpre
      exact step_core_preserves hndT hfiles h1 h2 hpn hpre
  | some pi =>
    simp only [hp] at hok
    cases hap : applyPatch h bp pi
        ⟨some td, arch.files, w.install, w.installExists⟩ with
    | error e => simp only [hap] at hok; exact Except.noConfusion hok
    | ok w3 =>
      simp only [hap, hfm, htm, Except.ok.injEq] at hok
      subst hok
      obtain ⟨oldC, newC, hlook, hinst3, hext3⟩ := applyPatch_ok_shape hap
      obtain ⟨hpfile, hppatch, hpch⟩ := hpatch pi hp
      have hlook2 : lookupA w.install pi.file = some oldC := hlook
      have hinst3b : w3.install = setA w.install pi.file newC := hinst3
      have hext3b : w3.extract
          = eraseKey (eraseKey arch.files pi.patch_file) pi.file := hext3
      have hkeys : ((setA w.install pi.file newC).map Prod.fst)
          = w.install.map Prod.fst := by
        refine keys_setA w.install pi.file newC ?_
        unfold containsKeyA
        rw [hlook2]
        rfl
      have hnd1 : ((setA w.install pi.file newC).map Prod.fst).Nodup :=
        hkeys ▸ hndI
      have hext : ∀ e ∈ eraseKey (eraseKey arch.files pi.patch_file) pi.file,
          e.1 = patchNameOf exeName ap.pkg.from_version ap.download_from_tag ∨
          e.1 ∈ changedFiles fromFM toFM :=
        fun e he => hfiles e (mem_eraseKey (mem_eraseKey he))
      constructor
      · intro f hfrom hto hdd hof hpn
        show lookupA (copyNewFiles w3.extract (deleteOldFiles osFail
          ((fromFM.map Prod.fst).filter fun g => !(containsKeyA toFM g))
          w3.install)) f = none
        rw [hext3b, hinst3b]
        exact step_core_removes hnd1 hext hfrom hto hdd hof hpn
      · intro f hsh h1 h2 hpn hpre
        show lookupA (copyNewFiles w3.extract (deleteOldFiles osFail
          ((fromFM.map Prod.fst).filter fun g => !(containsKeyA toFM g))
          w3.install)) f = lookupA w.install f
        rw [hext3b, hinst3b]
        rw [step_core_preserves hndT hext h1 h2 hpn hpre]
        refine lookupA_setA_ne w.install newC ?_
        intro hfe
        have hfch : f ∈ changedFiles fromFM toFM := by
          rw [← hfe, hpfile]
          exact hpch
        exact (not_mem_changedFiles hndT h1 h2) hfch

def c5bFrom : FileManifest := [("a.txt", "HA"), ("old.txt", "HO")]

def c5bTo : FileManifest := [("a.txt", "HA"), ("new.txt", "HN")]

def c5bPkg : Package := ⟨"update-v1-to-v2.zip", 9, "v1", none, none⟩

def c5bArch : Archive := ⟨true, none, [("new.txt", "N")]⟩

def c5bMan : Manifest :=
  ⟨[("v1", c5bFrom), ("v2", c5bTo)], [("v2", [c5bPkg])]⟩

def c5bW : World :=
  ⟨some ⟨some c5bMan, [("update-v1-to-v2.zip", c5bArch)]⟩, [],
   [("a.txt", "A"), ("old.txt", "O"), ("APPVERSION", "v1")], true⟩

def c5bW2 : World :=
  ⟨some ⟨some c5bMan, [("update-v1-to-v2.zip", c5bArch)]⟩, [],
   [("a.txt", "A"), ("APPVERSION", "v1"), ("new.txt", "N")], true⟩

def c5bHash : String → String := fun c => "H" ++ c

def c5bBd : String → String → String := fun o n => "D" ++ o ++ n

def c5bBp : String → String → Option String := fun _ _ => none

def c5bNoFail : String → Bool := fun _ => false

def c5bBuild : List (String × String) := [("new.txt", "N"), ("a.txt", "A2")]

theorem apply_step_removes_and_preserves_witness :
    lookupA c5bW2.install "old.txt" = none ∧
    lookupA c5bW2.install "a.txt" = lookupA c5bW.install "a.txt" := by
  have H := apply_step_removes_and_preserves c5bHash c5bBp c5bBd c5bNoFail
    c5bMan ⟨c5bPkg, "v2"⟩ c5bW c5bW2
    ⟨some c5bMan, [("update-v1-to-v2.zip", c5bArch)]⟩
    c5bArch c5bPkg c5bFrom c5bTo none "main.exe" c5bBuild 9
    rfl rfl rfl rfl rfl (by decide) (by decide) rfl
  refine ⟨H.1 "old.txt" rfl rfl rfl rfl (by decide),
    H.2 "a.txt" "HA" rfl rfl (by decide) ?_⟩
  intro g hg1 hg2
  have hmem : g ∈ c5bFrom.map Prod.fst :=
    (lookupA_isSome_iff_mem_keys _ g).mp hg1
  simp only [c5bFrom, List.map_cons, List.map_nil] at hmem
  rcases List.mem_cons.mp hmem with hga | hmem2
  · subst hga
    exact absurd hg2 (by decide)
  · rcases List.mem_cons.mp hmem2 with hgo | hnil
    · subst hgo
      decide
    · cases hnil

/-- `HOP_INTERVAL = 3` (create_update_package.py line 17). -/
def hopInterval : Nat := 3

/-- The patch-target selection of `main` (create_update_package.py lines
162–178): always the first version key different from the new tag
("direct"), plus — whenever more than `HOP_INTERVAL` versions exist and
`sorted_versions.index(new_tag) % HOP_INTERVAL == 0` (or there is no
previous version) — the version `HOP_INTERVAL` places further down the
descending order ("cumulative"), clamped to the oldest version and
deduplicated against the direct target. -/
def identifyPatchTargets (sortedVersions : List String) (newTag : String) :
    List (String × String) :=
  let previous := sortedVersions.find? fun v => v != newTag
  let t1 : List (String × String) :=
    match previous with
    | some p => [(p, "direct")]
    | none => []
  let vi := rankOf sortedVersions newTag
  if sortedVersions.length > hopInterval ∧
      (vi % hopInterval = 0 ∨ previous = none) then
    let hopIdx := min (vi + hopInterval) (sortedVersions.length - 1)
    let hopV := sortedVersions.getD hopIdx ""
    if hopV ≠ "" ∧ hopV ∉ t1.map Prod.fst then t1 ++ [(hopV, "cumulative")]
    else t1
  else t1

/-- Patch targets for a release: the key list of the master manifest
(with the new tag already inserted) is sorted descending first
(create_update_package.py line 163). -/
def patchTargetsForRelease (versionKeys : List String) (newTag : String) :
    List (String × String) :=
  identifyPatchTargets (pySortDesc versionKeys) newTag

/-- C8 counterexample: releasing `v4` over history `v1..v3` emits a
cumulative hop target, and the very next release `v5` emits one again —
the new tag always sits at index 0 of the descending order, so
`version_index % HOP_INTERVAL == 0` holds at every release once more
than `HOP_INTERVAL` versions exist, not every third release. -/
theorem hop_target_every_release :
    patchTargetsForRelease ["v1", "v2", "v3", "v4"] "v4"
      = [("v3", "direct"), ("v1", "cumulative")] ∧
    patchTargetsForRelease ["v1", "v2", "v3", "v4", "v5"] "v5"
      = [("v4", "direct"), ("v2", "cumulative")] := by
  exact ⟨rfl, rfl⟩

/-- C8. (amended)  The builder always targets the immediate previous
version; the cumulative hop target is emitted at EVERY release once more
than `HOP_INTERVAL` versions exist (the new tag always has index 0 in
the descending order, and `0 % HOP_INTERVAL = 0`), and it is the version
`HOP_INTERVAL` places below the new tag, clamped to the oldest. -/
theorem patch_target_selection (keys : List String) (newTag : String)
    (rest : List String)
    (hsort : pySortDesc keys = newTag :: rest)
    (hnd : (newTag :: rest).Nodup)
    (hne : "" ∉ newTag :: rest) :
    (rest = [] → patchTargetsForRelease keys newTag = []) ∧
    (∀ p r2, rest = p :: r2 →
      patchTargetsForRelease keys newTag
        = (p, "direct") :: (if hopInterval < rest.length + 1
            then [(rest.getD 2 "", "cumulative")] else [])) := by
  constructor
  · intro hrest
    subst hrest
    unfold patchTargetsForRelease
    rw [hsort]
    simp [identifyPatchTargets, List.find?, bne_self_eq_false, rankOf,
      hopInterval]
  · intro p r2 hrest
    subst hrest
    have hpnew : p ≠ newTag := by
      have h1 := (List.nodup_cons.mp hnd).1
      intro he
      apply h1
      rw [← he]
      exact List.mem_cons_self p r2
    have hfind : List.find? (fun v => v != newTag) (newTag :: p :: r2)
        = some p := by
      rw [List.find?_cons_of_neg, List.find?_cons_of_pos]
      · simp [hpnew]
      · simp
    have hrank : rankOf (newTag :: p :: r2) newTag = 0 := by simp [rankOf]
    unfold patchTargetsForRelease
    rw [hsort]
    simp only [identifyPatchTargets, hfind, hrank]
    by_cases hlen : (newTag :: p :: r2).length > hopInterval
    · have hcond : (newTag :: p :: r2).length > hopInterval ∧
          (0 % hopInterval = 0 ∨ (some p : Option String) = none) :=
        ⟨hlen, Or.inl rfl⟩
      rw [if_pos hcond]
      have hmin : min (0 + hopInterval) ((newTag :: p :: r2).length - 1)
          = 3 := by
        simp only [List.length_cons] at hlen ⊢
        unfold hopInterval at hlen ⊢
        omega
      rw [hmin]
      have hr2len : 1 < r2.length := by
        simp only [List.length_cons] at hlen
        unfold hopInterval at hlen
        omega
      have hgetD : (newTag :: p :: r2).getD 3 "" = r2.getD 1 "" := rfl
      have hhopmem : r2.getD 1 "" ∈ r2 := by
        rw [List.getD_eq_getElem r2 "" hr2len]
        exact List.getElem_mem hr2len
      have hhopne : r2.getD 1 "" ≠ "" := by
        intro he
        apply hne
        rw [← he]
        exact List.mem_cons_of_mem _ (List.mem_cons_of_mem _ hhopmem)
      have hhopnp : r2.getD 1 "" ∉ ([p] : List String) := by
        intro hmem2
        have heq : r2.getD 1 "" = p := by simpa using hmem2
        have hpnot : p ∉ r2 := (List.nodup_cons.mp (List.nodup_cons.mp hnd).2).1
        exact hpnot (heq ▸ hhopmem)
      rw [hgetD, if_pos ⟨hhopne, hhopnp⟩]
      have hc2 : hopInterval < (p :: r2).length + 1 := by
        simp only [List.length_cons] at hlen ⊢
        exact hlen
      rw [if_pos hc2]
      rfl
    · rw [if_neg (fun hc => hlen hc.1)]
      have hc2 : ¬(hopInterval < (p :: r2).length + 1) := by
        intro hc
        apply hlen
        simp only [List.length_cons] at hc ⊢
        exact hc
      rw [if_neg hc2]

theorem patch_target_selection_witness :
    patchTargetsForRelease ["v1", "v2", "v3", "v4"] "v4"
      = ("v3", "direct") ::
        (if hopInterval < (["v3", "v2", "v1"] : List String).length + 1
          then [(["v3", "v2", "v1"].getD 2 "", "cumulative")] else []) :=
  (patch_target_selection ["v1", "v2", "v3", "v4"] "v4" ["v3", "v2", "v1"]
    (by decide) (by decide) (by decide)).2 "v3" ["v2", "v1"] rfl

/-- The per-attempt update directory `.../update_package`
(update.py line 53). -/
def updateTempDir : String := "update_package"

/-- Externally visible actions of a download session: status messages,
HTTP fetches (one `session.get` per package — the code sends no Range
header and always opens the target with mode `wb`), error events, and
the terminal `download_finished(success, dir)`. -/
inductive DlEvent where
  | status (msg : String)
  | fetch (tag file : String)
  | error (msg : String)
  | finished (dir : Option String)
deriving DecidableEq, Repr

/-- Download-session state: whether the temp directory exists, its files
with byte sizes, `downloaded_files`, the two progress counters, and the
stored `downloaded_update_dir` setting. -/
structure DlState where
  tempExists : Bool
  tempFiles : List (String × Nat)
  downloadedFiles : List String
  totalBytesReceived : Nat
  currentBytesOffset : Nat
  storedDir : Option String
deriving DecidableEq, Repr

/-- `UpdateHandler._cleanup_after_failure` (update.py lines 292–296):
remove the whole temp directory and clear `downloaded_files`. -/
def cleanupAfterFailure (st : DlState) : DlState :=
  { st with tempExists := false, tempFiles := [], downloadedFiles := [] }

/-- The sequential `_start_next_download` / `_run_download_file` loop
(update.py lines 241–290).  `net tag file` is the network oracle (the
number of bytes served, `none` for a `RequestException`); `ioFail file`
is the `IOError` oracle for the write. -/
def downloadLoop (net : String → String → Option Nat)
    (ioFail : String → Bool) :
    List AnnPkg → DlState → DlState × List DlEvent
  | [], st =>
    ({ st with storedDir := some updateTempDir },
     [.status "All updates downloaded. Ready to install.",
      .finished (some updateTempDir)])
  | p :: rest, st =>
    match net p.download_from_tag p.pkg.file with
    | none =>
      (cleanupAfterFailure st,
       [.status ("Downloading " ++ p.pkg.file ++ "..."),
        .fetch p.download_from_tag p.pkg.file,
        .error ("Download failed for " ++ p.pkg.file), .finished none])
    | some n =>
      if ioFail p.pkg.file then
        (cleanupAfterFailure st,
         [.status ("Downloading " ++ p.pkg.file ++ "..."),
          .fetch p.download_from_tag p.pkg.file,
          .error ("Could not write file " ++ p.pkg.file), .finished none])
      else
        let st2 : DlState := { st with
          tempFiles := setA st.tempFiles p.pkg.file n,
          totalBytesReceived := st.totalBytesReceived + n,
          downloadedFiles := st.downloadedFiles ++ [p.pkg.file],
          currentBytesOffset := st.currentBytesOffset + n }
        let r := downloadLoop net ioFail rest st2
        (r.1, .status ("Downloading " ++ p.pkg.file ++ "...")
          :: .fetch p.download_from_tag p.pkg.file :: r.2)

/-- `UpdateHandler.start_update_download` (update.py lines 218–239):
refuse an empty path, wipe and recreate the temp directory, write
`manifest.json`, reset every counter and list, then run the download
loop. -/
def startUpdateDownload (net : String → String → Option Nat)
    (ioFail : String → Bool) (updatePath : List AnnPkg)
    (manifestData : String) (st : DlState) : DlState × List DlEvent :=
  if updatePath = [] then (st, [.error "No update path calculated."])
  else
    downloadLoop net ioFail updatePath
      { st with
        tempExists := true,
        tempFiles := [("manifest.json", manifestData.length)],
        downloadedFiles := [], totalBytesReceived := 0,
        currentBytesOffset := 0 }

/-- `UpdateHandler.check_for_existing_download` (update.py lines
302–310): return the recorded directory iff the setting is non-empty
and `manifest.json` exists inside it. -/
def checkForExistingDownload (stored : String)
    (dirs : List (String × List (String × Nat))) : Option String :=
  if stored = "" then none
  else
    match lookupA dirs stored with
    | some fs => if containsKeyA fs "manifest.json" then some stored else none
    | none => none

/-- The SPEC's notion of a fully downloaded prior session — a valid
manifest plus ALL expected package files present.  Written from the
spec's words (spec.md, claim C9) for comparison with
`checkForExistingDownload`, which is translated from the code. -/
def specFullyDownloaded (dirs : List (String × List (String × Nat)))
    (d : String) (expected : List String) : Bool :=
  match lookupA dirs d with
  | some fs => containsKeyA fs "manifest.json"
      && expected.all fun f => containsKeyA fs f
  | none => false

def c3Pkg : Package := ⟨"up.zip", 5, "v1", none, none⟩

def c3Net : String → String → Option Nat := fun _ _ => some 5

def c3NoIO : String → Bool := fun _ => false

def c3StFull : DlState :=
  ⟨true, [("manifest.json", 4), ("up.zip", 5)], [], 0, 0, none⟩

def c3StEmpty : DlState := ⟨false, [], [], 0, 0, none⟩

/-- C3 counterexample: a package file already present in the temp
directory at exactly its expected size is fetched again anyway, the
whole session result is identical to starting with an empty temp
directory, and the progress counter ends at the full 5 freshly fetched
bytes (the pre-existing bytes are not counted in any baseline) — there
is no skip and no ranged resume. -/
theorem fully_present_file_refetched :
    containsKeyA c3StFull.tempFiles "up.zip" = true ∧
    lookupA c3StFull.tempFiles "up.zip" = some c3Pkg.size ∧
    DlEvent.fetch "v2" "up.zip"
      ∈ (startUpdateDownload c3Net c3NoIO [⟨c3Pkg, "v2"⟩] "MANI" c3StFull).2 ∧
    startUpdateDownload c3Net c3NoIO [⟨c3Pkg, "v2"⟩] "MANI" c3StFull
      = startUpdateDownload c3Net c3NoIO [⟨c3Pkg, "v2"⟩] "MANI" c3StEmpty ∧
    (startUpdateDownload c3Net c3NoIO [⟨c3Pkg, "v2"⟩] "MANI"
      c3StFull).1.totalBytesReceived = 5 :=
  ⟨rfl, rfl, by decide, by decide, rfl⟩

theorem downloadLoop_fetch_all {net : String → String → Option Nat}
    {ioFail : String → Bool} {queue : List AnnPkg} {st : DlState} {d : String}
    (hfin : DlEvent.finished (some d) ∈ (downloadLoop net ioFail queue st).2) :
    ∀ p ∈ queue, DlEvent.fetch p.download_from_tag p.pkg.file
      ∈ (downloadLoop net ioFail queue st).2 := by
  induction queue generalizing st with
  | nil => intro p hp; cases hp
  | cons q rest ih =>
    intro p hp
    simp only [downloadLoop] at hfin ⊢
    cases hnet : net q.download_from_tag q.pkg.file with
    | none =>
      simp only [hnet] at hfin
      simp at hfin
    | some n =>
      simp only [hnet] at hfin ⊢
      by_cases hio : ioFail q.pkg.file = true
      · rw [if_pos hio] at hfin
        simp at hfin
      · rw [if_neg hio] at hfin ⊢
        have hfin2 : DlEvent.finished (some d)
            ∈ (downloadLoop net ioFail rest { st with
              tempFiles := setA st.tempFiles q.pkg.file n,
              totalBytesReceived := st.totalBytesReceived + n,
              downloadedFiles := st.downloadedFiles ++ [q.pkg.file],
              currentBytesOffset := st.currentBytesOffset + n }).2 := by
          simp only [List.mem_cons] at hfin
          rcases hfin with h | h | h
          · exact absurd h (by simp)
          · exact absurd h (by simp)
          · exact h
        rcases List.mem_cons.mp hp with hpq | hprest
        · subst hpq
          exact List.mem_cons_of_mem _ (List.mem_cons_self _ _)
        · exact List.mem_cons_of_mem _
            (List.mem_cons_of_mem _ (ih hfin2 p hprest))

/-- C3. (amended)  There is no resume logic at all:
`start_update_download` wipes and recreates the temp directory and
resets every counter, so the session's entire outcome (final state and
event sequence) is independent of whatever package files were already
present — only the untouched stored-settings field carries over — and on
a session that finishes successfully every package of the path was
fetched by a plain full `GET` (no file is skipped, nothing resumes from
an offset). -/
theorem download_session_no_resume (net : String → String → Option Nat)
    (ioFail : String → Bool) (path : List AnnPkg) (mani : String)
    (st st2 : DlState) (hsd : st.storedDir = st2.storedDir)
    (hpath : path ≠ []) :
    startUpdateDownload net ioFail path mani st
      = startUpdateDownload net ioFail path mani st2 ∧
    (∀ d, DlEvent.finished (some d)
        ∈ (startUpdateDownload net ioFail path mani st).2 →
      ∀ p ∈ path, DlEvent.fetch p.download_from_tag p.pkg.file
        ∈ (startUpdateDownload net ioFail path mani st).2) := by
  unfold startUpdateDownload
  rw [if_neg hpath, if_neg hpath]
  constructor
  · rw [hsd]
  · intro d hfin p hp
    exact downloadLoop_fetch_all hfin p hp

theorem download_session_no_resume_witness :
    startUpdateDownload c3Net c3NoIO [⟨c3Pkg, "v2"⟩] "MANI" c3StFull
      = startUpdateDownload c3Net c3NoIO [⟨c3Pkg, "v2"⟩] "MANI" c3StEmpty ∧
    DlEvent.fetch "v2" "up.zip"
      ∈ (startUpdateDownload c3Net c3NoIO [⟨c3Pkg, "v2"⟩] "MANI" c3StFull).2 :=
  have H := download_session_no_resume c3Net c3NoIO [⟨c3Pkg, "v2"⟩] "MANI"
    c3StFull c3StEmpty rfl (by decide)
  ⟨H.1, H.2 "update_package" (by decide) ⟨c3Pkg, "v2"⟩ (by decide)⟩

theorem downloadLoop_failure_cleanup {net : String → String → Option Nat}
    {ioFail : String → Bool} {queue : List AnnPkg} {st : DlState}
    (hfail : DlEvent.finished none ∈ (downloadLoop net ioFail queue st).2) :
    (downloadLoop net ioFail queue st).1.tempExists = false ∧
    (downloadLoop net ioFail queue st).1.tempFiles = [] ∧
    (downloadLoop net ioFail queue st).1.downloadedFiles = [] ∧
    (∃ msg, DlEvent.error msg ∈ (downloadLoop net ioFail queue st).2) := by
  induction queue generalizing st with
  | nil =>
    simp only [downloadLoop] at hfail
    simp at hfail
  | cons q rest ih =>
    simp only [downloadLoop] at hfail ⊢
    cases hnet : net q.download_from_tag q.pkg.file with
    | none =>
      refine ⟨rfl, rfl, rfl, "Download failed for " ++ q.pkg.file, ?_⟩
      simp
    | some n =>
      simp only [hnet] at hfail ⊢
      by_cases hio : ioFail q.pkg.file = true
      · rw [if_pos hio] at hfail ⊢
        refine ⟨rfl, rfl, rfl, "Could not write file " ++ q.pkg.file, ?_⟩
        simp
      · rw [if_neg hio] at hfail ⊢
        have hfail2 : DlEvent.finished none
            ∈ (downloadLoop net ioFail rest { st with
              tempFiles := setA st.tempFiles q.pkg.file n,
              totalBytesReceived := st.totalBytesReceived + n,
              downloadedFiles := st.downloadedFiles ++ [q.pkg.file],
              currentBytesOffset := st.currentBytesOffset + n }).2 := by
          simp only [List.mem_cons] at hfail
          rcases hfail with h | h | h
          · exact absurd h (by simp)
          · exact absurd h (by simp)
          · exact h
        obtain ⟨h1, h2, h3, msg, hmsg⟩ := ih hfail2
        exact ⟨h1, h2, h3, msg,
          List.mem_cons_of_mem _ (List.mem_cons_of_mem _ hmsg)⟩

/-- C7.  Whenever a download session ends with
`download_finished(False, "")` (any `RequestException` or `IOError` on
any package), the final state has the whole temp directory deleted and
`downloaded_files` cleared — no partially-downloaded state survives —
and an error event was surfaced; the loop itself is a total function
(the exception is caught), so the failure is not fatal to the running
application. -/
theorem download_failure_cleanup (net : String → String → Option Nat)
    (ioFail : String → Bool) (path : List AnnPkg) (mani : String)
    (st : DlState)
    (hfail : DlEvent.finished none
      ∈ (startUpdateDownload net ioFail path mani st).2) :
    (startUpdateDownload net ioFail path mani st).1.tempExists = false ∧
    (startUpdateDownload net ioFail path mani st).1.tempFiles = [] ∧
    (startUpdateDownload net ioFail path mani st).1.downloadedFiles = [] ∧
    (∃ msg, DlEvent.error msg
      ∈ (startUpdateDownload net ioFail path mani st).2) := by
  unfold startUpdateDownload at hfail ⊢
  by_cases hpath : path = []
  · rw [if_pos hpath] at hfail
    simp at hfail
  · rw [if_neg hpath] at hfail ⊢
    exact downloadLoop_failure_cleanup hfail

def c7Pkg : Package := ⟨"big.zip", 9, "v1", none, none⟩

def c7Net : String → String → Option Nat := fun _ _ => none

def c7NoIO : String → Bool := fun _ => false

def c7St : DlState :=
  ⟨true, [("manifest.json", 4), ("big.zip", 3)], ["big.zip"], 7, 3, none⟩

theorem download_failure_cleanup_witness :
    (startUpdateDownload c7Net c7NoIO [⟨c7Pkg, "v2"⟩] "MANI"
      c7St).1.tempExists = false ∧
    (startUpdateDownload c7Net c7NoIO [⟨c7Pkg, "v2"⟩] "MANI"
      c7St).1.tempFiles = [] ∧
    (startUpdateDownload c7Net c7NoIO [⟨c7Pkg, "v2"⟩] "MANI"
      c7St).1.downloadedFiles = [] ∧
    (∃ msg, DlEvent.error msg
      ∈ (startUpdateDownload c7Net c7NoIO [⟨c7Pkg, "v2"⟩] "MANI" c7St).2) :=
  download_failure_cleanup c7Net c7NoIO [⟨c7Pkg, "v2"⟩] "MANI" c7St
    (by decide)

/-- C9 counterexample: the stored directory holds only `manifest.json` —
the expected package file `up.zip` is missing — and yet
`check_for_existing_download` returns the directory for reuse, while the
spec's fully-downloaded condition is false. -/
theorem existing_download_reused_without_packages :
    checkForExistingDownload "dl" [("dl", [("manifest.json", 5)])]
      = some "dl" ∧
    specFullyDownloaded [("dl", [("manifest.json", 5)])] "dl" ["up.zip"]
      = false :=
  ⟨rfl, rfl⟩

/-- C9. (amended)  `check_for_existing_download` returns the recorded
directory exactly when the setting is non-empty and `manifest.json`
exists inside it; the expected package files are never checked, so the
fast path can reuse a session whose package files are absent. -/
theorem checkForExistingDownload_spec (stored : String)
    (dirs : List (String × List (String × Nat))) (d : String) :
    checkForExistingDownload stored dirs = some d ↔
      (d = stored ∧ stored ≠ "" ∧ ∃ fs, lookupA dirs stored = some fs ∧
        containsKeyA fs "manifest.json" = true) := by
  unfold checkForExistingDownload
  by_cases hs : stored = ""
  · rw [if_pos hs]
    simp [hs]
  · rw [if_neg hs]
    cases hl : lookupA dirs stored with
    | none => simp [hs]
    | some fs =>
      dsimp only
      by_cases hm : containsKeyA fs "manifest.json" = true
      · rw [if_pos hm]
        constructor
        · intro h
          exact ⟨(Option.some.inj h).symm, hs, fs, rfl, hm⟩
        · rintro ⟨hd, _, fs2, hfs2, hm2⟩
          subst hd
          rfl
      · rw [if_neg hm]
        constructor
        · intro h
          exact Option.noConfusion h
        · rintro ⟨hd, _, fs2, hfs2, hm2⟩
          exact absurd ((Option.some.inj hfs2) ▸ hm2) hm
